import Mathlib

/-
Shallow embedding of the proc-opt repository (Rust):
  src/src/jobs.rs        - Job, JobList, JobSchedule and the two makespan computations
  src/src/schrage/mod.rs - the SchrageJob priority order, schrage, schrage_preemptive

Modelling choices:
  - The machine integers (u32) are modelled as Nat.  The spec declares overflow
    behaviour out of scope and no claim exercises wrap-around.
  - The Rust BinaryHeap is modelled as a list kept sorted in descending priority
    order: push inserts the new element after existing equal elements, pop takes
    the head.  In schrage_preemptive the heap elements carry pairwise distinct
    indices, so the order is total there and pop is the unique maximum element.
    In schrage the tie order among jobs with equal cooldown and processing time
    is unspecified in the source (BinaryHeap order among equal keys); no claim
    depends on it.
  - The Rust sort_unstable_by_key is modelled by a stable insertion sort on the
    same key; the relative order of equal keys is unspecified in the source and
    no claim depends on it.  schrage sorts by descending delivery time and pops
    from the back of the vector; this is modelled as an ascending sort consumed
    from the front, which is what the source comment itself says it implements.
  - The main while loops are modelled with an explicit fuel argument so that the
    definitions compute by kernel reduction; the fuel supplied by the wrappers
    is proved sufficient (see the lemmas about the measures below), and when the
    fuel is exhausted the accumulated result is returned unchanged.
-/

/-- The record from src/src/jobs.rs: delivery time r, processing time p,
cooldown time q. -/
structure Job where
  delivery_time : Nat
  processing_time : Nat
  cooldown_time : Nat
deriving DecidableEq, Repr

/-- Job::total_time from src/src/jobs.rs. -/
def Job.total_time (j : Job) : Nat :=
  j.delivery_time + j.processing_time + j.cooldown_time

/-- Placeholder job used for the (never exercised) out-of-bounds defaults of
list indexing in the model of JobSchedule::c_max. -/
def dummyJob : Job := ⟨0, 0, 0⟩

/-- JobList from src/src/jobs.rs. -/
structure JobList where
  jobs : List Job
deriving DecidableEq, Repr

/-- The accumulator loop of JobList::c_max (src/src/jobs.rs lines 94-107):
makespan is the running maximum, s the current time. -/
def JobList.cMaxGo (makespan s : Nat) : List Job → Nat
  | [] => makespan
  | j :: tl =>
    let s' := if s < j.delivery_time then j.delivery_time + j.processing_time
              else s + j.processing_time
    JobList.cMaxGo (Nat.max makespan (s' + j.cooldown_time)) s' tl

/-- JobList::c_max from src/src/jobs.rs. -/
def JobList.c_max (l : JobList) : Nat := JobList.cMaxGo 0 0 l.jobs

/-- JobSchedule from src/src/jobs.rs: the jobs vector together with the
timetable of (time, job index) start/resume events. -/
structure JobSchedule where
  jobs : List Job
  timetable : List (Nat × Nat)
deriving DecidableEq, Repr

/-- The loop of JobSchedule::c_max (src/src/jobs.rs lines 121-144).  rem is the
processing_times_remaining vector; prev the (prev_time, prev_index) pair.  The
Rust indexing jobs[prev_index] is modelled with getD (Claim C10 shows the
indices are always in bounds on outputs of schrage_preemptive); the
checked_sub(..).unwrap_or(0) is Nat subtraction, which is also truncating. -/
def JobSchedule.cMaxGo (jobs : List Job) (rem : List Nat) (prev : Nat × Nat)
    (makespan : Nat) : List (Nat × Nat) → Nat
  | [] =>
    Nat.max makespan
      (prev.1 + rem.getD prev.2 0 + (jobs.getD prev.2 dummyJob).cooldown_time)
  | (time, idx) :: tl =>
    let m := Nat.max makespan
      (prev.1 + rem.getD prev.2 0 + (jobs.getD prev.2 dummyJob).cooldown_time)
    let rem' := rem.set prev.2 (rem.getD prev.2 0 - (time - prev.1))
    JobSchedule.cMaxGo jobs rem' (time, idx) m tl

/-- JobSchedule::c_max from src/src/jobs.rs. -/
def JobSchedule.c_max (s : JobSchedule) : Nat :=
  match s.timetable with
  | [] => 0
  | e :: rest => JobSchedule.cMaxGo s.jobs (s.jobs.map (·.processing_time)) e 0 rest

/-- SchrageJob::cmp from src/src/schrage/mod.rs lines 51-61: ascending priority
order, by cooldown time with processing time as tiebreaker. -/
def SchrageJob.cmp (a b : Job) : Ordering :=
  if a.cooldown_time = b.cooldown_time then
    compare a.processing_time b.processing_time
  else
    compare a.cooldown_time b.cooldown_time

/-- Model of BinaryHeap::push: insert into a list kept sorted in descending
order of the given comparison, after any elements of equal priority.  Pop is
taking the head of the list. -/
def pushBy {α : Type} (c : α → α → Ordering) (x : α) : List α → List α
  | [] => [x]
  | y :: ys => if c x y = Ordering.gt then x :: y :: ys else y :: pushBy c x ys

/-- Push a batch of released elements (the inner while loop of both
schedulers). -/
def pushAllBy {α : Type} (c : α → α → Ordering) (h rel : List α) : List α :=
  rel.foldl (fun h x => pushBy c x h) h

/-- Sorting by ascending delivery time (the first line of both schedulers). -/
def sortedByDelivery (jobs : List Job) : List Job :=
  List.insertionSort (fun a b => a.delivery_time ≤ b.delivery_time) jobs

/-- The main loop of schrage (src/src/schrage/mod.rs lines 126-149), with
explicit fuel.  rem is the still unreleased part of the delivery-sorted job
list, heap the ready_to_run priority queue, t the clock, acc the output
sequence pi. -/
def schrageLoop : Nat → List Job → List Job → Nat → List Job → List Job
  | 0, _, _, _, acc => acc
  | fuel + 1, rem, heap, t, acc =>
    match pushAllBy SchrageJob.cmp heap (rem.takeWhile fun j => j.delivery_time ≤ t) with
    | j :: heap2 =>
      schrageLoop fuel (rem.dropWhile fun j => j.delivery_time ≤ t) heap2
        (t + j.processing_time) (acc ++ [j])
    | [] =>
      match rem.dropWhile (fun j => j.delivery_time ≤ t) with
      | [] => acc
      | j :: rest =>
        schrageLoop fuel (j :: rest) [] j.delivery_time acc

/-- Fuel bound for both loops: the square of twice the job count dominates the
loop measure, see the mu lemmas below. -/
def loopFuel (n : Nat) : Nat := (2 * n) * (2 * n) + n + 1

/-- schrage from src/src/schrage/mod.rs lines 114-151. -/
def schrage (jobs : List Job) : JobList :=
  ⟨schrageLoop (loopFuel jobs.length) (sortedByDelivery jobs) [] 0 []⟩

/-- Pair a list with indices starting at k (the job_index bookkeeping of
schrage_preemptive: positions in the sorted jobs vector). -/
def indexed : Nat → List Job → List (Nat × Job)
  | _, [] => []
  | k, x :: xs => (k, x) :: indexed (k + 1) xs

/-- The heap order of schrage_preemptive: Rust compares the (SchrageJob, usize)
tuples lexicographically. -/
def preCmp (a b : Nat × Job) : Ordering :=
  (SchrageJob.cmp a.2 b.2).then (compare a.1 b.1)

/-- The main loop of schrage_preemptive (src/src/schrage/mod.rs lines 199-236),
with explicit fuel.  rem is the still unreleased suffix of the indexed sorted
jobs, heap the ready_to_run queue of (index, job copy) pairs, t the clock, tt
the timetable built so far.  In the Some branch the timetable entry is pushed
unless the last entry already names the popped index, the clock advances by the
popped copy's processing time, and if the next delivery arrives strictly before
that the copy goes back on the heap with the remaining processing time and the
clock rolls back to that delivery. -/
def preLoop : Nat → List (Nat × Job) → List (Nat × Job) → Nat → List (Nat × Nat) → List (Nat × Nat)
  | 0, _, _, _, tt => tt
  | fuel + 1, rem, heap, t, tt =>
    match pushAllBy preCmp heap (rem.takeWhile fun x => x.2.delivery_time ≤ t) with
    | (i, sj) :: heap2 =>
      match rem.dropWhile (fun x => x.2.delivery_time ≤ t) with
      | (k, nj) :: rest =>
        if nj.delivery_time < t + sj.processing_time then
          preLoop fuel ((k, nj) :: rest)
            (pushBy preCmp
              (i, { sj with processing_time := t + sj.processing_time - nj.delivery_time })
              heap2)
            nj.delivery_time
            (if tt.getLast?.map Prod.snd = some i then tt else tt ++ [(t, i)])
        else
          preLoop fuel ((k, nj) :: rest) heap2 (t + sj.processing_time)
            (if tt.getLast?.map Prod.snd = some i then tt else tt ++ [(t, i)])
      | [] =>
        preLoop fuel [] heap2 (t + sj.processing_time)
          (if tt.getLast?.map Prod.snd = some i then tt else tt ++ [(t, i)])
    | [] =>
      match rem.dropWhile (fun x => x.2.delivery_time ≤ t) with
      | [] => tt
      | (k, nj) :: rest => preLoop fuel ((k, nj) :: rest) [] nj.delivery_time tt

/-- schrage_preemptive from src/src/schrage/mod.rs lines 186-241. -/
def schrage_preemptive (jobs : List Job) : JobSchedule :=
  let sorted := sortedByDelivery jobs
  ⟨sorted, preLoop (loopFuel jobs.length) (indexed 0 sorted) [] 0 []⟩

/-- The time the timetable attributes to job index i through closed intervals:
each entry (t1, i) runs until the time of the next timetable entry. -/
def closedTime (i : Nat) : List (Nat × Nat) → Nat
  | (t1, j) :: (t2, k) :: tl => (if j = i then t2 - t1 else 0) + closedTime i ((t2, k) :: tl)
  | _ => 0

/-- Total elapsed time the timetable attributes to job index i: the closed
intervals, plus, for the job of the very last entry, its remaining processing
time. -/
def attributedTime (s : JobSchedule) (i : Nat) : Nat :=
  closedTime i s.timetable +
    (if s.timetable.getLast?.map Prod.snd = some i then
      (s.jobs.getD i dummyJob).processing_time - closedTime i s.timetable
    else 0)

/-- The loop measure: r unreleased jobs, h heap entries, u unreleased jobs
whose delivery time is still in the future. -/
def muOf (r h u : Nat) : Nat := (2 * r + h) * (2 * r + h) + u

/-- The start times of the clock replay performed by JobList::c_max: with
clock s, a job starts at its delivery time if the machine would otherwise be
idle, else at s, and the clock advances by its processing time (see
cMaxGo_eq_startTimes_fold below). -/
def startTimes (s : Nat) : List Job → List (Nat × Job)
  | [] => []
  | j :: tl =>
    (if s < j.delivery_time then j.delivery_time else s, j) ::
      startTimes ((if s < j.delivery_time then j.delivery_time else s) + j.processing_time) tl

/-- The slack of job index i at clock t: the still-open part of the interval of
the last timetable entry, when that entry belongs to i. -/
def ttSlack (i t : Nat) (tt : List (Nat × Nat)) : Nat :=
  match tt.getLast? with
  | some x => if x.2 = i then t - x.1 else 0
  | none => 0

/-- Closed attributed time plus the open slack of the last entry; this sum is
invariant under pushing a timetable entry at the current clock. -/
def closedSlack (i t : Nat) (tt : List (Nat × Nat)) : Nat :=
  closedTime i tt + ttSlack i t tt

/-- The processing time of the job at index i of the sorted jobs vector. -/
def procOf (a : List Job) (i : Nat) : Nat := (a.getD i dummyJob).processing_time

/-- The total remaining processing time of the heap entries whose cooldown
time is at least the threshold. -/
def heapWork (th : Nat) (heap : List (Nat × Job)) : Nat :=
  ((heap.filter fun x => decide (th ≤ x.2.cooldown_time)).map
    fun x => x.2.processing_time).sum

/-- The total processing time of the jobs of the sorted vector at the given
indices. -/
def sumProc (a : List Job) (S : List Nat) : Nat := (S.map fun i => procOf a i).sum

/-- The input collection of concrete scenario 1, in its raw order. -/
def exampleJobs1 : List Job :=
  [⟨10, 5, 7⟩, ⟨13, 6, 26⟩, ⟨11, 7, 24⟩, ⟨20, 4, 21⟩, ⟨30, 3, 8⟩, ⟨0, 6, 17⟩, ⟨30, 2, 0⟩]

/-- The input collection of concrete scenario 2 (preemption). -/
def exampleJobs2 : List Job :=
  [⟨0, 27, 78⟩, ⟨140, 7, 67⟩, ⟨14, 36, 54⟩, ⟨133, 76, 5⟩]

/-- Claim C6: on the seven jobs of scenario 1, schrage returns exactly the
stated order, its makespan is 53, and the raw input order has makespan 58. -/
theorem schrage_example1 :
    (schrage exampleJobs1).jobs =
      [⟨0, 6, 17⟩, ⟨10, 5, 7⟩, ⟨13, 6, 26⟩, ⟨11, 7, 24⟩, ⟨20, 4, 21⟩, ⟨30, 3, 8⟩, ⟨30, 2, 0⟩] ∧
    JobList.c_max (schrage exampleJobs1) = 53 ∧
    JobList.c_max ⟨exampleJobs1⟩ = 58 := by decide

/-- Claim C7: on the four jobs of scenario 2, schrage_preemptive returns
exactly the stated delivery-sorted jobs vector and timetable, and its makespan
is 221. -/
theorem schrage_preemptive_example2 :
    schrage_preemptive exampleJobs2 =
      ⟨[⟨0, 27, 78⟩, ⟨14, 36, 54⟩, ⟨133, 76, 5⟩, ⟨140, 7, 67⟩],
        [(0, 0), (27, 1), (133, 2), (140, 3), (147, 2)]⟩ ∧
    JobSchedule.c_max (schrage_preemptive exampleJobs2) = 221 := by decide

/-- SchrageJob.cmp returns gt exactly when the left job has strictly larger
cooldown time, or equal cooldown time and strictly larger processing time. -/
theorem SchrageJob.cmp_eq_gt_iff (a b : Job) :
    SchrageJob.cmp a b = Ordering.gt ↔
      b.cooldown_time < a.cooldown_time ∨
        (a.cooldown_time = b.cooldown_time ∧ b.processing_time < a.processing_time) := by
  unfold SchrageJob.cmp
  split_ifs with h <;> rw [Nat.compare_eq_gt] <;> omega

/-- SchrageJob.cmp returns eq exactly when cooldown and processing times agree. -/
theorem SchrageJob.cmp_eq_eq_iff (a b : Job) :
    SchrageJob.cmp a b = Ordering.eq ↔
      a.cooldown_time = b.cooldown_time ∧ a.processing_time = b.processing_time := by
  unfold SchrageJob.cmp
  split_ifs with h <;> rw [Nat.compare_eq_eq] <;> omega

/-- SchrageJob.cmp returns lt exactly when the mirrored comparison returns gt. -/
theorem SchrageJob.cmp_eq_lt_iff (a b : Job) :
    SchrageJob.cmp a b = Ordering.lt ↔ SchrageJob.cmp b a = Ordering.gt := by
  unfold SchrageJob.cmp
  split_ifs with h h' <;> rw [Nat.compare_eq_lt, Nat.compare_eq_gt] <;> omega

/-- Claim C8: the priority order used by both schedulers is a total order in
which larger cooldown time means strictly higher priority, ties are broken by
larger processing time, and two jobs compare equal exactly when both fields
agree.  Stated as: the gt and eq characterisations, antisymmetry of lt against
gt, and transitivity of gt. -/
theorem schrageCmp_total_order :
    ∀ a b c : Job,
      (SchrageJob.cmp a b = Ordering.gt ↔
        b.cooldown_time < a.cooldown_time ∨
          (a.cooldown_time = b.cooldown_time ∧ b.processing_time < a.processing_time)) ∧
      (SchrageJob.cmp a b = Ordering.eq ↔
        a.cooldown_time = b.cooldown_time ∧ a.processing_time = b.processing_time) ∧
      (SchrageJob.cmp a b = Ordering.lt ↔ SchrageJob.cmp b a = Ordering.gt) ∧
      (SchrageJob.cmp a b = Ordering.gt → SchrageJob.cmp b c = Ordering.gt →
        SchrageJob.cmp a c = Ordering.gt) := by
  intro a b c
  refine ⟨SchrageJob.cmp_eq_gt_iff a b, SchrageJob.cmp_eq_eq_iff a b,
    SchrageJob.cmp_eq_lt_iff a b, ?_⟩
  rw [SchrageJob.cmp_eq_gt_iff, SchrageJob.cmp_eq_gt_iff, SchrageJob.cmp_eq_gt_iff]
  omega

/-- Witness for C8: the transitivity part applied at concrete jobs. -/
theorem schrageCmp_total_order_witness :
    SchrageJob.cmp ⟨0, 0, 3⟩ ⟨0, 0, 1⟩ = Ordering.gt :=
  (schrageCmp_total_order ⟨0, 0, 3⟩ ⟨0, 0, 2⟩ ⟨0, 0, 1⟩).2.2.2 (by decide) (by decide)

/-- Counterexample to C2 as stated: on the two jobs (0,1,5) and (10,1,1) the
machine is idle from time 1 to time 10, so the interval attributed to job 0
is 10 while its processing time is 1. -/
theorem conservation_counterexample :
    0 < (schrage_preemptive [⟨0, 1, 5⟩, ⟨10, 1, 1⟩]).jobs.length ∧
    attributedTime (schrage_preemptive [⟨0, 1, 5⟩, ⟨10, 1, 1⟩]) 0 ≠
      ((schrage_preemptive [⟨0, 1, 5⟩, ⟨10, 1, 1⟩]).jobs.getD 0 dummyJob).processing_time := by
  decide

/-- Counterexample to C5 as stated: with the zero-processing-time job (1,0,9)
the timetable contains two entries at time 1, so it is not strictly ascending
by time. -/
theorem timetable_ascending_counterexample :
    (schrage_preemptive [⟨0, 2, 1⟩, ⟨1, 0, 9⟩]).timetable = [(0, 0), (1, 1), (1, 0)] ∧
    ¬ List.Chain' (fun a b : Nat × Nat => a.1 < b.1)
        (schrage_preemptive [⟨0, 2, 1⟩, ⟨1, 0, 9⟩]).timetable := by
  have h : (schrage_preemptive [⟨0, 2, 1⟩, ⟨1, 0, 9⟩]).timetable = [(0, 0), (1, 1), (1, 0)] := by
    decide
  refine ⟨h, ?_⟩
  rw [h]
  intro hc
  rw [List.chain'_cons, List.chain'_cons] at hc
  exact absurd hc.2.1 (by decide)

/-! ### Basic facts about the heap model, takeWhile and the loop measure -/

theorem pushBy_perm {α : Type} (c : α → α → Ordering) (x : α) :
    ∀ h : List α, (pushBy c x h).Perm (x :: h)
  | [] => List.Perm.refl _
  | y :: ys => by
    unfold pushBy
    split
    · exact List.Perm.refl _
    · exact (List.Perm.cons y (pushBy_perm c x ys)).trans (List.Perm.swap x y ys)

theorem pushAllBy_perm {α : Type} (c : α → α → Ordering) :
    ∀ rel h : List α, (pushAllBy c h rel).Perm (h ++ rel)
  | [], h => by simp [pushAllBy]
  | x :: xs, h => by
    have h1 : pushAllBy c h (x :: xs) = pushAllBy c (pushBy c x h) xs := rfl
    rw [h1]
    refine (pushAllBy_perm c xs (pushBy c x h)).trans ?_
    refine (List.Perm.append_right xs (pushBy_perm c x h)).trans ?_
    exact List.perm_middle.symm

theorem pushAllBy_length {α : Type} (c : α → α → Ordering) (h rel : List α) :
    (pushAllBy c h rel).length = h.length + rel.length := by
  have := (pushAllBy_perm c rel h).length_eq
  simpa using this

theorem mem_pushAllBy {α : Type} (c : α → α → Ordering) (h rel : List α) (x : α) :
    x ∈ pushAllBy c h rel ↔ x ∈ h ∨ x ∈ rel := by
  rw [(pushAllBy_perm c rel h).mem_iff]
  exact List.mem_append

theorem mem_takeWhile_pred {α : Type} (p : α → Bool) (l : List α) :
    ∀ x ∈ l.takeWhile p, p x = true := by
  induction l with
  | nil => simp
  | cons a l ih =>
    rw [List.takeWhile_cons]
    split
    · intro x hx
      rcases List.mem_cons.1 hx with rfl | hx
      · assumption
      · exact ih x hx
    · simp

theorem dropWhile_head_false {α : Type} (p : α → Bool) (y : α) (ys : List α) :
    ∀ l : List α, l.dropWhile p = y :: ys → p y = false := by
  intro l
  induction l with
  | nil => intro h; simp [List.dropWhile] at h
  | cons a l ih =>
    rw [List.dropWhile_cons]
    split
    · exact ih
    · intro h
      injection h with h1 _
      subst h1
      simp_all

theorem takeWhile_dropWhile_length {α : Type} (p : α → Bool) (l : List α) :
    (l.takeWhile p).length + (l.dropWhile p).length = l.length := by
  conv_rhs => rw [← List.takeWhile_append_dropWhile p l]
  rw [List.length_append]

theorem dropWhile_eq_self_of_takeWhile_nil {α : Type} (p : α → Bool) (l : List α)
    (h : l.takeWhile p = []) : l.dropWhile p = l := by
  cases l with
  | nil => rfl
  | cons a l =>
    by_cases hp : p a
    · rw [List.takeWhile_cons_of_pos hp] at h
      cases h
    · exact List.dropWhile_cons_of_neg hp

theorem muOf_lt_of_lt {r h u r' h' u' : Nat} (hphi : 2 * r' + h' < 2 * r + h)
    (hu : u' ≤ r') : muOf r' h' u' < muOf r h u := by
  unfold muOf
  have key : (2 * r' + h' + 1) * (2 * r' + h' + 1) =
      (2 * r' + h') * (2 * r' + h') + 2 * (2 * r' + h') + 1 := by ring
  have h2 : (2 * r' + h' + 1) * (2 * r' + h' + 1) ≤ (2 * r + h) * (2 * r + h) :=
    Nat.mul_le_mul hphi hphi
  omega

theorem muOf_lt_of_eq {r h u r' h' u' : Nat} (hphi : 2 * r' + h' = 2 * r + h)
    (hu : u' < u) : muOf r' h' u' < muOf r h u := by
  unfold muOf
  have h2 : (2 * r' + h') * (2 * r' + h') = (2 * r + h) * (2 * r + h) := by rw [hphi]
  omega

/-- In the idle-jump branch the count of unreleasable jobs strictly drops. -/
theorem countP_arrival_lt {α : Type} (delivery : α → Nat) (t : Nat) (x : α) (l : List α)
    (hx : t < delivery x) :
    (x :: l).countP (fun y => decide (delivery x < delivery y)) <
      (x :: l).countP (fun y => decide (t < delivery y)) := by
  rw [List.countP_cons, List.countP_cons]
  have h1 : l.countP (fun y => decide (delivery x < delivery y)) ≤
      l.countP (fun y => decide (t < delivery y)) := by
    refine List.countP_mono_left ?_
    intro a _ h
    simp only [decide_eq_true_eq] at h ⊢
    omega
  have h2 : (decide (delivery x < delivery x)) = false := by simp
  have h3 : (decide (t < delivery x)) = true := by simp [hx]
  rw [h2, h3]
  simp only [Bool.false_eq_true, if_false, if_true]
  omega

/-! ### Claim C3: schrage returns a permutation of its input -/

theorem schrageLoop_perm :
    ∀ fuel rem heap t acc,
      muOf rem.length heap.length
        (rem.countP fun j => decide (t < j.delivery_time)) < fuel →
      (schrageLoop fuel rem heap t acc).Perm (acc ++ heap ++ rem) := by
  intro fuel
  induction fuel with
  | zero => intro rem heap t acc h; exact absurd h (Nat.not_lt_zero _)
  | succ f ih =>
    intro rem heap t acc hmu
    rw [schrageLoop]
    cases hh : pushAllBy SchrageJob.cmp heap (rem.takeWhile fun j => j.delivery_time ≤ t) with
    | cons j heap2 =>
      have hlen : heap2.length + 1 = heap.length +
          (rem.takeWhile fun j => j.delivery_time ≤ t).length := by
        have := congrArg List.length hh
        rw [pushAllBy_length] at this
        simpa using this.symm
      have hsplit : (rem.takeWhile fun j => j.delivery_time ≤ t).length +
          (rem.dropWhile fun j => j.delivery_time ≤ t).length = rem.length :=
        takeWhile_dropWhile_length _ _
      have hmu' : muOf (rem.dropWhile fun j => j.delivery_time ≤ t).length heap2.length
          ((rem.dropWhile fun j => j.delivery_time ≤ t).countP
            fun x => decide (t + j.processing_time < x.delivery_time)) < f := by
        refine Nat.lt_of_lt_of_le (muOf_lt_of_lt ?_ (List.countP_le_length _)) (Nat.lt_succ_iff.1 hmu)
        omega
      refine (ih _ _ _ _ hmu').trans ?_
      have hperm : (j :: heap2).Perm
          (heap ++ (rem.takeWhile fun j => j.delivery_time ≤ t)) := by
        rw [← hh]; exact pushAllBy_perm _ _ _
      have e1 : ((acc ++ [j]) ++ heap2) ++ (rem.dropWhile fun j => j.delivery_time ≤ t) =
          acc ++ ((j :: heap2) ++ (rem.dropWhile fun j => j.delivery_time ≤ t)) := by
        simp
      have e2 : (acc ++ heap) ++ rem = acc ++ (heap ++ rem) := by
        rw [List.append_assoc]
      rw [e1, e2]
      refine List.Perm.append_left acc ?_
      have e3 : (heap ++ (rem.takeWhile fun j => j.delivery_time ≤ t)) ++
          (rem.dropWhile fun j => j.delivery_time ≤ t) = heap ++ rem := by
        rw [List.append_assoc, List.takeWhile_append_dropWhile]
      rw [← e3]
      exact List.Perm.append_right _ hperm
    | nil =>
      have hlen0 : heap.length + (rem.takeWhile fun j => j.delivery_time ≤ t).length = 0 := by
        have := congrArg List.length hh
        rw [pushAllBy_length] at this
        simpa using this
      have hheap : heap = [] := List.length_eq_zero.1 (by omega)
      have hrel : (rem.takeWhile fun j => j.delivery_time ≤ t) = [] :=
        List.length_eq_zero.1 (by omega)
      have hrest : rem.dropWhile (fun j => j.delivery_time ≤ t) = rem :=
        dropWhile_eq_self_of_takeWhile_nil _ _ hrel
      cases hr : rem.dropWhile (fun j => j.delivery_time ≤ t) with
      | nil =>
        rw [hr] at hrest
        subst hheap
        rw [← hrest]
        simp
      | cons j rest =>
        have hrem : rem = j :: rest := by rw [← hrest, hr]
        have hj : t < j.delivery_time := by
          have := dropWhile_head_false (fun j : Job => decide (j.delivery_time ≤ t)) j rest rem hr
          simpa using this
        have hmu' : muOf (j :: rest).length ([] : List Job).length
            ((j :: rest).countP fun x => decide (j.delivery_time < x.delivery_time)) < f := by
          refine Nat.lt_of_lt_of_le (muOf_lt_of_eq ?_ ?_) (Nat.lt_succ_iff.1 hmu)
          · subst hheap; rw [hrem]
          · rw [hrem]
            exact countP_arrival_lt Job.delivery_time t j rest hj
        refine (ih _ _ _ _ hmu').trans ?_
        subst hheap
        rw [hrem]

theorem mem_pushBy {α : Type} (c : α → α → Ordering) (y : α) (h : List α) (x : α) :
    x ∈ pushBy c y h ↔ x = y ∨ x ∈ h := by
  rw [(pushBy_perm c y h).mem_iff]
  exact List.mem_cons

theorem sortedByDelivery_perm (jobs : List Job) : (sortedByDelivery jobs).Perm jobs :=
  List.perm_insertionSort _ jobs

/-- The initial measure is below the fuel supplied by the wrappers. -/
theorem muOf_init_lt_loopFuel (n u : Nat) (hu : u ≤ n) : muOf n 0 u < loopFuel n := by
  unfold muOf loopFuel
  have h : (2 * n + 0) * (2 * n + 0) = (2 * n) * (2 * n) := by ring
  omega

/-- Helper: the sequence built by schrage is a permutation of the input. -/
theorem schrage_jobs_perm (jobs : List Job) : (schrage jobs).jobs.Perm jobs := by
  unfold schrage
  have hlen : (sortedByDelivery jobs).length = jobs.length :=
    (sortedByDelivery_perm jobs).length_eq
  have hmu : muOf (sortedByDelivery jobs).length ([] : List Job).length
      ((sortedByDelivery jobs).countP fun j => decide (0 < j.delivery_time)) <
      loopFuel jobs.length := by
    rw [List.length_nil, hlen]
    refine muOf_init_lt_loopFuel _ _ ?_
    rw [← hlen]
    exact List.countP_le_length _
  refine (schrageLoop_perm (loopFuel jobs.length) (sortedByDelivery jobs) [] 0 [] hmu).trans ?_
  simpa using sortedByDelivery_perm jobs

/-- Claim C3: for every input collection, schrage returns a JobList whose jobs
vector is a multiset-equal permutation of the input vector. -/
theorem schrage_permutation (jobs : List Job) : (schrage jobs).jobs.Perm jobs :=
  schrage_jobs_perm jobs

/-! ### The entry invariants of the preemptive loop (Claims C4, C5, C10) -/

theorem get?_imp (a : List Job) (i : Nat) (x : Job) (h : a.get? i = some x) :
    i < a.length ∧ a.getD i dummyJob = x := by
  obtain ⟨hlt, hget⟩ := List.get?_eq_some.1 h
  refine ⟨hlt, ?_⟩
  rw [List.getD_eq_getElem?_getD, ← List.get?_eq_getElem?, h]
  rfl

theorem mem_indexed (a : List Job) :
    ∀ k x, x ∈ indexed k a → k ≤ x.1 ∧ a.get? (x.1 - k) = some x.2 := by
  induction a with
  | nil => intro k x hx; simp [indexed] at hx
  | cons y l ih =>
    intro k x hx
    rw [indexed] at hx
    rcases List.mem_cons.1 hx with rfl | hx
    · simp
    · obtain ⟨h1, h2⟩ := ih (k + 1) x hx
      refine ⟨by omega, ?_⟩
      have he : x.1 - k = (x.1 - (k + 1)) + 1 := by omega
      rw [he]
      exact h2

/-- The master entry invariant: every timetable entry produced by preLoop has
an in-bounds index and a time at or after the delivery time of its job, and the
timetable is ascending by time with no immediately repeated job index. -/
theorem preLoop_entries (a : List Job) :
    ∀ fuel rem heap t tt,
      (∀ x ∈ rem, a.get? x.1 = some x.2) →
      (∀ x ∈ heap, x.1 < a.length ∧ (a.getD x.1 dummyJob).delivery_time ≤ t) →
      (∀ e ∈ tt, e.2 < a.length ∧ (a.getD e.2 dummyJob).delivery_time ≤ e.1 ∧ e.1 ≤ t) →
      List.Chain' (fun x y : Nat × Nat => x.1 ≤ y.1 ∧ x.2 ≠ y.2) tt →
      (∀ e ∈ preLoop fuel rem heap t tt,
        e.2 < a.length ∧ (a.getD e.2 dummyJob).delivery_time ≤ e.1) ∧
      List.Chain' (fun x y : Nat × Nat => x.1 ≤ y.1 ∧ x.2 ≠ y.2) (preLoop fuel rem heap t tt) := by
  intro fuel
  induction fuel with
  | zero =>
    intro rem heap t tt hrem hheap htt hch
    rw [preLoop]
    exact ⟨fun e he => ⟨(htt e he).1, (htt e he).2.1⟩, hch⟩
  | succ f ih =>
    intro rem heap t tt hrem hheap htt hch
    rw [preLoop]
    have hrel : ∀ x ∈ rem.takeWhile (fun x => x.2.delivery_time ≤ t),
        x.1 < a.length ∧ (a.getD x.1 dummyJob).delivery_time ≤ t := by
      intro x hx
      have hmem : x ∈ rem := List.takeWhile_subset _ hx
      obtain ⟨hlt, hgd⟩ := get?_imp a x.1 x.2 (hrem x hmem)
      have hpred := mem_takeWhile_pred _ _ x hx
      simp only [decide_eq_true_eq] at hpred
      exact ⟨hlt, by rw [hgd]; exact hpred⟩
    have hheap' : ∀ x ∈ pushAllBy preCmp heap (rem.takeWhile fun x => x.2.delivery_time ≤ t),
        x.1 < a.length ∧ (a.getD x.1 dummyJob).delivery_time ≤ t := by
      intro x hx
      rcases (mem_pushAllBy preCmp heap _ x).1 hx with hx | hx
      · exact hheap x hx
      · exact hrel x hx
    have hrest : ∀ x ∈ rem.dropWhile (fun x => x.2.delivery_time ≤ t), a.get? x.1 = some x.2 :=
      fun x hx => hrem x (List.dropWhile_subset _ hx)
    cases hh : pushAllBy preCmp heap (rem.takeWhile fun x => x.2.delivery_time ≤ t) with
    | nil =>
      cases hr : rem.dropWhile (fun x => x.2.delivery_time ≤ t) with
      | nil =>
        exact ⟨fun e he => ⟨(htt e he).1, (htt e he).2.1⟩, hch⟩
      | cons x rest =>
        obtain ⟨k, nj⟩ := x
        have hjump : t < nj.delivery_time := by
          have := dropWhile_head_false _ _ _ rem hr
          simpa using this
        refine ih _ _ _ _ ?_ ?_ ?_ hch
        · rw [← hr]; exact hrest
        · intro x hx; cases hx
        · intro e he
          obtain ⟨h1, h2, h3⟩ := htt e he
          exact ⟨h1, h2, by omega⟩
    | cons hd heap2 =>
      obtain ⟨i, sj⟩ := hd
      have hhd : i < a.length ∧ (a.getD i dummyJob).delivery_time ≤ t := by
        have : ((i, sj) : Nat × Job) ∈ pushAllBy preCmp heap
            (rem.takeWhile fun x => x.2.delivery_time ≤ t) := by
          rw [hh]; exact List.mem_cons_self _ _
        exact hheap' _ this
      have hheap2 : ∀ x ∈ heap2, x.1 < a.length ∧ (a.getD x.1 dummyJob).delivery_time ≤ t := by
        intro x hx
        refine hheap' x ?_
        rw [hh]
        exact List.mem_cons_of_mem _ hx
      -- facts about the updated timetable, for both branches
      have htt2 : ∀ e ∈ (if tt.getLast?.map Prod.snd = some i then tt else tt ++ [(t, i)]),
          e.2 < a.length ∧ (a.getD e.2 dummyJob).delivery_time ≤ e.1 ∧ e.1 ≤ t := by
        split
        · intro e he; exact htt e he
        · intro e he
          rcases List.mem_append.1 he with he | he
          · exact htt e he
          · rcases List.mem_singleton.1 he with rfl
            exact ⟨hhd.1, hhd.2, Nat.le_refl t⟩
      have hch2 : List.Chain' (fun x y : Nat × Nat => x.1 ≤ y.1 ∧ x.2 ≠ y.2)
          (if tt.getLast?.map Prod.snd = some i then tt else tt ++ [(t, i)]) := by
        split
        · exact hch
        · next hne =>
          rw [List.chain'_append]
          refine ⟨hch, List.chain'_singleton _, ?_⟩
          intro x hx y hy
          simp only [List.head?_cons, Option.mem_def, Option.some.injEq] at hy
          subst hy
          have hxl : tt.getLast? = some x := hx
          have hmem : x ∈ tt := List.mem_of_getLast?_eq_some hxl
          refine ⟨(htt x hmem).2.2, ?_⟩
          intro hxi
          exact hne (by rw [hxl]; simp [hxi])
      -- the three recursive sub-branches
      cases hr : rem.dropWhile (fun x => x.2.delivery_time ≤ t) with
      | nil =>
        dsimp only
        refine ih _ _ _ _ (by intro x hx; cases hx) ?_ ?_ hch2
        · intro x hx
          obtain ⟨h1, h2⟩ := hheap2 x hx
          exact ⟨h1, by omega⟩
        · intro e he
          obtain ⟨h1, h2, h3⟩ := htt2 e he
          exact ⟨h1, h2, by omega⟩
      | cons hd2 rest =>
        obtain ⟨k, nj⟩ := hd2
        have hjump : t < nj.delivery_time := by
          have := dropWhile_head_false _ _ _ rem hr
          simpa using this
        have hrest' : ∀ x ∈ ((k, nj) :: rest), a.get? x.1 = some x.2 := by
          rw [← hr]; exact hrest
        dsimp only
        split
        · -- preemption: push the reduced copy back, roll the clock to the delivery
          refine ih _ _ _ _ hrest' ?_ ?_ hch2
          · intro x hx
            rcases (mem_pushBy preCmp _ heap2 x).1 hx with rfl | hx
            · exact ⟨hhd.1, by dsimp only; omega⟩
            · obtain ⟨h1, h2⟩ := hheap2 x hx
              exact ⟨h1, by omega⟩
          · intro e he
            obtain ⟨h1, h2, h3⟩ := htt2 e he
            exact ⟨h1, h2, by omega⟩
        · -- no preemption: advance the clock past the popped job
          refine ih _ _ _ _ hrest' ?_ ?_ hch2
          · intro x hx
            obtain ⟨h1, h2⟩ := hheap2 x hx
            exact ⟨h1, by omega⟩
          · intro e he
            obtain ⟨h1, h2, h3⟩ := htt2 e he
            exact ⟨h1, h2, by omega⟩

theorem indexed_length : ∀ (k : Nat) (l : List Job), (indexed k l).length = l.length := by
  intro k l
  induction l generalizing k with
  | nil => rfl
  | cons x xs ih => rw [indexed, List.length_cons, List.length_cons, ih]

/-- The entry invariant instantiated at the initial state of
schrage_preemptive. -/
theorem schrage_preemptive_entries (jobs : List Job) :
    (∀ e ∈ (schrage_preemptive jobs).timetable,
      e.2 < (schrage_preemptive jobs).jobs.length ∧
      ((schrage_preemptive jobs).jobs.getD e.2 dummyJob).delivery_time ≤ e.1) ∧
    List.Chain' (fun x y : Nat × Nat => x.1 ≤ y.1 ∧ x.2 ≠ y.2)
      (schrage_preemptive jobs).timetable := by
  unfold schrage_preemptive
  dsimp only
  refine preLoop_entries (sortedByDelivery jobs) _ _ _ _ _ ?_ ?_ ?_ List.chain'_nil
  · intro x hx
    have h := (mem_indexed (sortedByDelivery jobs) 0 x hx).2
    simpa using h
  · intro x hx; cases hx
  · intro e he; cases he

/-- Claim C10: every timetable entry of schrage_preemptive carries an index
strictly below the length of the returned jobs vector, so JobSchedule::c_max
never indexes out of bounds on such outputs. -/
theorem schrage_preemptive_indices_lt (jobs : List Job) :
    ∀ e ∈ (schrage_preemptive jobs).timetable,
      e.2 < (schrage_preemptive jobs).jobs.length :=
  fun e he => ((schrage_preemptive_entries jobs).1 e he).1

/-- Witness for C10 at a one-job input whose single entry is (5, 0). -/
theorem schrage_preemptive_indices_lt_witness :
    (0 : Nat) < (schrage_preemptive [Job.mk 5 2 3]).jobs.length :=
  schrage_preemptive_indices_lt [Job.mk 5 2 3] (5, 0) (by decide)

/-! ### Claim C4: no premature starts -/

/-- JobList.c_max is the fold over startTimes: the clock replay of the two
functions is the same. -/
theorem cMaxGo_eq_startTimes_fold (l : List Job) :
    ∀ m s, JobList.cMaxGo m s l = (startTimes s l).foldl
      (fun acc x => Nat.max acc (x.1 + x.2.processing_time + x.2.cooldown_time)) m := by
  induction l with
  | nil => intro m s; rfl
  | cons j tl ih =>
    intro m s
    simp only [JobList.cMaxGo, startTimes, List.foldl_cons]
    by_cases h : s < j.delivery_time
    · simp only [if_pos h]
      exact ih _ _
    · simp only [if_neg h]
      exact ih _ _

theorem startTimes_ge_delivery (l : List Job) :
    ∀ s, ∀ x ∈ startTimes s l, x.2.delivery_time ≤ x.1 := by
  induction l with
  | nil => intro s x hx; cases hx
  | cons j tl ih =>
    intro s x hx
    rw [startTimes] at hx
    rcases List.mem_cons.1 hx with rfl | hx
    · dsimp only
      split
      · exact Nat.le_refl _
      · omega
    · exact ih _ x hx

/-- Claim C4: for both schedulers no job starts before its delivery time: in
the sequence returned by schrage, the clock replay of JobList::c_max (made
explicit by startTimes, see cMaxGo_eq_startTimes_fold) starts every job no
earlier than its delivery time, and in the timetable of schrage_preemptive
every entry (t, i) has jobs[i].delivery_time at most t. -/
theorem no_premature_start (jobs : List Job) :
    (∀ x ∈ startTimes 0 (schrage jobs).jobs, x.2.delivery_time ≤ x.1) ∧
    (∀ e ∈ (schrage_preemptive jobs).timetable,
      ((schrage_preemptive jobs).jobs.getD e.2 dummyJob).delivery_time ≤ e.1) :=
  ⟨fun x hx => startTimes_ge_delivery _ 0 x hx,
   fun e he => ((schrage_preemptive_entries jobs).1 e he).2⟩

/-- Witness for C4 at a one-job input: the job (5,2,3) starts at time 5 in
both schedules. -/
theorem no_premature_start_witness :
    (Job.mk 5 2 3).delivery_time ≤ 5 ∧
    ((schrage_preemptive [Job.mk 5 2 3]).jobs.getD 0 dummyJob).delivery_time ≤ 5 :=
  ⟨(no_premature_start [Job.mk 5 2 3]).1 (5, Job.mk 5 2 3) (by decide),
   (no_premature_start [Job.mk 5 2 3]).2 (5, 0) (by decide)⟩

/-! ### Claim C5 (amended): ordering of the timetable -/

/-- With strictly positive processing times everywhere, the timetable is
strictly ascending: the clock strictly advances past every pop. -/
theorem preLoop_strict :
    ∀ fuel rem heap t tt,
      (∀ x ∈ rem, 0 < x.2.processing_time) →
      (∀ x ∈ heap, 0 < x.2.processing_time) →
      (∀ e ∈ tt, e.1 < t) →
      List.Chain' (fun x y : Nat × Nat => x.1 < y.1 ∧ x.2 ≠ y.2) tt →
      List.Chain' (fun x y : Nat × Nat => x.1 < y.1 ∧ x.2 ≠ y.2)
        (preLoop fuel rem heap t tt) := by
  intro fuel
  induction fuel with
  | zero => intro rem heap t tt _ _ _ hch; rw [preLoop]; exact hch
  | succ f ih =>
    intro rem heap t tt hrem hheap htt hch
    rw [preLoop]
    have hheap' : ∀ x ∈ pushAllBy preCmp heap (rem.takeWhile fun x => x.2.delivery_time ≤ t),
        0 < x.2.processing_time := by
      intro x hx
      rcases (mem_pushAllBy preCmp heap _ x).1 hx with hx | hx
      · exact hheap x hx
      · exact hrem x (List.takeWhile_subset _ hx)
    have hrest : ∀ x ∈ rem.dropWhile (fun x => x.2.delivery_time ≤ t),
        0 < x.2.processing_time :=
      fun x hx => hrem x (List.dropWhile_subset _ hx)
    cases hh : pushAllBy preCmp heap (rem.takeWhile fun x => x.2.delivery_time ≤ t) with
    | nil =>
      cases hr : rem.dropWhile (fun x => x.2.delivery_time ≤ t) with
      | nil => exact hch
      | cons hd2 rest =>
        obtain ⟨k, nj⟩ := hd2
        have hjump : t < nj.delivery_time := by
          have := dropWhile_head_false _ _ _ rem hr
          simpa using this
        dsimp only
        refine ih _ _ _ _ (by rw [← hr]; exact hrest) (by intro x hx; cases hx) ?_ hch
        intro e he
        have := htt e he
        omega
    | cons hd heap2 =>
      obtain ⟨i, sj⟩ := hd
      have hsj : 0 < sj.processing_time := by
        refine hheap' (i, sj) ?_
        rw [hh]
        exact List.mem_cons_self _ _
      have hheap2 : ∀ x ∈ heap2, 0 < x.2.processing_time := by
        intro x hx
        refine hheap' x ?_
        rw [hh]
        exact List.mem_cons_of_mem _ hx
      have htt2 : ∀ t', t < t' →
          ∀ e ∈ (if tt.getLast?.map Prod.snd = some i then tt else tt ++ [(t, i)]), e.1 < t' := by
        intro t' ht' e he
        split at he
        · have := htt e he; omega
        · rcases List.mem_append.1 he with he | he
          · have := htt e he; omega
          · rcases List.mem_singleton.1 he with rfl
            exact ht'
      have hch2 : List.Chain' (fun x y : Nat × Nat => x.1 < y.1 ∧ x.2 ≠ y.2)
          (if tt.getLast?.map Prod.snd = some i then tt else tt ++ [(t, i)]) := by
        split
        · exact hch
        · next hne =>
          rw [List.chain'_append]
          refine ⟨hch, List.chain'_singleton _, ?_⟩
          intro x hx y hy
          simp only [List.head?_cons, Option.mem_def, Option.some.injEq] at hy
          subst hy
          have hxl : tt.getLast? = some x := hx
          have hmem : x ∈ tt := List.mem_of_getLast?_eq_some hxl
          refine ⟨htt x hmem, ?_⟩
          intro hxi
          exact hne (by rw [hxl]; simp [hxi])
      cases hr : rem.dropWhile (fun x => x.2.delivery_time ≤ t) with
      | nil =>
        dsimp only
        refine ih _ _ _ _ (by intro x hx; cases hx) hheap2 (htt2 _ (by omega)) hch2
      | cons hd2 rest =>
        obtain ⟨k, nj⟩ := hd2
        have hjump : t < nj.delivery_time := by
          have := dropWhile_head_false _ _ _ rem hr
          simpa using this
        have hrest' : ∀ x ∈ ((k, nj) :: rest), 0 < x.2.processing_time := by
          rw [← hr]; exact hrest
        dsimp only
        split
        · refine ih _ _ _ _ hrest' ?_ (htt2 _ hjump) hch2
          intro x hx
          rcases (mem_pushBy preCmp _ heap2 x).1 hx with rfl | hx
          · dsimp only
            next hlt => omega
          · exact hheap2 x hx
        · refine ih _ _ _ _ hrest' hheap2 (htt2 _ (by omega)) hch2

/-- Claim C5 amended: the timetable of schrage_preemptive is ascending by time
and never repeats the immediately preceding job index; it is strictly
ascending whenever every input job has positive processing time (the
counterexample shows strictness can fail for zero processing times). -/
theorem timetable_ascending_amended (jobs : List Job) :
    List.Chain' (fun x y : Nat × Nat => x.1 ≤ y.1 ∧ x.2 ≠ y.2)
      (schrage_preemptive jobs).timetable ∧
    ((∀ j ∈ jobs, 0 < j.processing_time) →
      List.Chain' (fun x y : Nat × Nat => x.1 < y.1 ∧ x.2 ≠ y.2)
        (schrage_preemptive jobs).timetable) := by
  constructor
  · exact (schrage_preemptive_entries jobs).2
  · intro hpos
    unfold schrage_preemptive
    dsimp only
    refine preLoop_strict _ _ _ _ _ ?_ (by intro x hx; cases hx) (by intro e he; cases he)
      List.chain'_nil
    intro x hx
    have h2 := (mem_indexed _ 0 x hx).2
    have hmem : x.2 ∈ sortedByDelivery jobs := List.get?_mem h2
    exact hpos x.2 ((sortedByDelivery_perm jobs).mem_iff.1 hmem)

/-- Witness for the amended C5: with positive processing times the timetable
of a one-job input is the strictly ascending [(5, 0)]. -/
theorem timetable_ascending_amended_witness :
    List.Chain' (fun x y : Nat × Nat => x.1 < y.1 ∧ x.2 ≠ y.2)
      (schrage_preemptive [Job.mk 5 2 3]).timetable :=
  (timetable_ascending_amended [Job.mk 5 2 3]).2 (by decide)

/-! ### Claim C9: empty inputs, and nonempty timetables on nonempty inputs -/

theorem updated_tt_ne_nil (tt : List (Nat × Nat)) (t i : Nat) :
    (if tt.getLast?.map Prod.snd = some i then tt else tt ++ [(t, i)]) ≠ [] := by
  split
  · next h =>
    intro hnil
    subst hnil
    simp at h
  · simp

theorem preLoop_ne_nil_of_ne_nil :
    ∀ fuel rem heap t tt, tt ≠ [] → preLoop fuel rem heap t tt ≠ [] := by
  intro fuel
  induction fuel with
  | zero => intro rem heap t tt h; rw [preLoop]; exact h
  | succ f ih =>
    intro rem heap t tt h
    rw [preLoop]
    cases hh : pushAllBy preCmp heap (rem.takeWhile fun x => x.2.delivery_time ≤ t) with
    | cons hd heap2 =>
      obtain ⟨i, sj⟩ := hd
      cases hr : rem.dropWhile (fun x => x.2.delivery_time ≤ t) with
      | nil =>
        dsimp only
        exact ih _ _ _ _ (updated_tt_ne_nil tt t i)
      | cons hd2 rest =>
        obtain ⟨k, nj⟩ := hd2
        dsimp only
        split
        · exact ih _ _ _ _ (updated_tt_ne_nil tt t i)
        · exact ih _ _ _ _ (updated_tt_ne_nil tt t i)
    | nil =>
      cases hr : rem.dropWhile (fun x => x.2.delivery_time ≤ t) with
      | nil => exact h
      | cons hd2 rest =>
        obtain ⟨k, nj⟩ := hd2
        dsimp only
        exact ih _ _ _ _ h

theorem preLoop_ne_nil :
    ∀ fuel rem heap t tt,
      (rem ≠ [] ∨ heap ≠ []) →
      (rem.countP fun x => decide (t < x.2.delivery_time)) < fuel →
      preLoop fuel rem heap t tt ≠ [] := by
  intro fuel
  induction fuel with
  | zero => intro rem heap t tt _ h; exact absurd h (Nat.not_lt_zero _)
  | succ f ih =>
    intro rem heap t tt hne hcount
    rw [preLoop]
    cases hh : pushAllBy preCmp heap (rem.takeWhile fun x => x.2.delivery_time ≤ t) with
    | cons hd heap2 =>
      obtain ⟨i, sj⟩ := hd
      cases hr : rem.dropWhile (fun x => x.2.delivery_time ≤ t) with
      | nil =>
        dsimp only
        exact preLoop_ne_nil_of_ne_nil f _ _ _ _ (updated_tt_ne_nil tt t i)
      | cons hd2 rest =>
        obtain ⟨k, nj⟩ := hd2
        dsimp only
        split
        · exact preLoop_ne_nil_of_ne_nil f _ _ _ _ (updated_tt_ne_nil tt t i)
        · exact preLoop_ne_nil_of_ne_nil f _ _ _ _ (updated_tt_ne_nil tt t i)
    | nil =>
      have hlen0 : heap.length + (rem.takeWhile fun x => x.2.delivery_time ≤ t).length = 0 := by
        have := congrArg List.length hh
        rw [pushAllBy_length] at this
        simpa using this
      have hrel : (rem.takeWhile fun x => x.2.delivery_time ≤ t) = [] :=
        List.length_eq_zero.1 (by omega)
      have hrest : rem.dropWhile (fun x => x.2.delivery_time ≤ t) = rem :=
        dropWhile_eq_self_of_takeWhile_nil _ _ hrel
      cases hr : rem.dropWhile (fun x => x.2.delivery_time ≤ t) with
      | nil =>
        exfalso
        have hremnil : rem = [] := by rw [← hrest, hr]
        have hheapnil : heap = [] := List.length_eq_zero.1 (by omega)
        rcases hne with hne | hne
        · exact hne hremnil
        · exact hne hheapnil
      | cons hd2 rest =>
        obtain ⟨k, nj⟩ := hd2
        have hrem2 : rem = (k, nj) :: rest := by rw [← hrest, hr]
        have hjump : t < nj.delivery_time := by
          have := dropWhile_head_false _ _ _ rem hr
          simpa using this
        dsimp only
        refine ih _ _ _ _ (Or.inl (by simp)) ?_
        have hlt : ((k, nj) :: rest).countP
            (fun x => decide (nj.delivery_time < x.2.delivery_time)) <
            ((k, nj) :: rest).countP (fun x => decide (t < x.2.delivery_time)) := by
          have := countP_arrival_lt (fun x : Nat × Job => x.2.delivery_time) t (k, nj) rest hjump
          simpa using this
        rw [hrem2] at hcount
        omega

theorem sortedByDelivery_ne_nil (jobs : List Job) (h : jobs ≠ []) :
    sortedByDelivery jobs ≠ [] := by
  intro hs
  apply h
  have hp := (sortedByDelivery_perm jobs).symm
  rw [hs] at hp
  exact hp.eq_nil

/-- Claim C9: on the empty input both schedulers return empty results and both
makespan computations give 0; conversely on every non-empty input the
timetable of schrage_preemptive is non-empty. -/
theorem empty_input_behaviour :
    (schrage []).jobs = [] ∧
    (schrage_preemptive []).jobs = [] ∧
    (schrage_preemptive []).timetable = [] ∧
    JobList.c_max (schrage []) = 0 ∧
    JobSchedule.c_max (schrage_preemptive []) = 0 ∧
    ∀ jobs : List Job, jobs ≠ [] → (schrage_preemptive jobs).timetable ≠ [] := by
  refine ⟨by decide, by decide, by decide, by decide, by decide, ?_⟩
  intro jobs hne
  unfold schrage_preemptive
  dsimp only
  refine preLoop_ne_nil _ _ _ _ _ (Or.inl ?_) ?_
  · cases hs : sortedByDelivery jobs with
    | nil => exact absurd hs (sortedByDelivery_ne_nil jobs hne)
    | cons y ys => rw [indexed]; simp
  · have h1 : (indexed 0 (sortedByDelivery jobs)).countP
        (fun x => decide (0 < x.2.delivery_time)) ≤ jobs.length := by
      have h2 : (indexed 0 (sortedByDelivery jobs)).countP
          (fun x => decide (0 < x.2.delivery_time)) ≤
          (indexed 0 (sortedByDelivery jobs)).length := by
        apply List.countP_le_length
      rw [indexed_length, (sortedByDelivery_perm jobs).length_eq] at h2
      exact h2
    unfold loopFuel
    have h3 : 0 ≤ (2 * jobs.length) * (2 * jobs.length) := Nat.zero_le _
    omega

/-- Witness for C9: the one-job input has a non-empty timetable. -/
theorem empty_input_behaviour_witness :
    (schrage_preemptive [Job.mk 5 2 3]).timetable ≠ [] :=
  empty_input_behaviour.2.2.2.2.2 [Job.mk 5 2 3] (by decide)

/-! ### Claim C2 (amended): conservation of processing time up to idle gaps -/

theorem closedTime_append (i : Nat) :
    ∀ (tt : List (Nat × Nat)) (u v : Nat),
      closedTime i (tt ++ [(u, v)]) = closedTime i tt + ttSlack i u tt
  | [], u, v => by simp [closedTime, ttSlack]
  | [(t1, j)], u, v => by
    simp only [List.cons_append, List.nil_append, closedTime, ttSlack, List.getLast?_singleton]
    omega
  | (t1, j) :: (t2, k) :: tl, u, v => by
    have ih := closedTime_append i ((t2, k) :: tl) u v
    simp only [List.cons_append] at ih ⊢
    rw [closedTime, closedTime, ih]
    have hsl : ttSlack i u ((t1, j) :: (t2, k) :: tl) = ttSlack i u ((t2, k) :: tl) := by
      unfold ttSlack
      rw [List.getLast?_cons_cons]
    rw [hsl]
    omega

theorem ttSlack_eq_zero (i t : Nat) (tt : List (Nat × Nat))
    (h : tt.getLast?.map Prod.snd ≠ some i) : ttSlack i t tt = 0 := by
  unfold ttSlack
  cases hl : tt.getLast? with
  | none => rfl
  | some x =>
    have hne : x.2 ≠ i := by
      intro he
      apply h
      rw [hl, ← he]
      rfl
    simp [hne]

theorem ttSlack_mono (i : Nat) {t t' : Nat} (h : t ≤ t') (tt : List (Nat × Nat)) :
    ttSlack i t tt ≤ ttSlack i t' tt := by
  unfold ttSlack
  cases tt.getLast? with
  | none => exact Nat.le_refl _
  | some x =>
    by_cases hx : x.2 = i
    · simp only [if_pos hx]
      omega
    · simp only [if_neg hx]
      exact Nat.le_refl 0

theorem closedSlack_mono (i : Nat) {t t' : Nat} (h : t ≤ t') (tt : List (Nat × Nat)) :
    closedSlack i t tt ≤ closedSlack i t' tt :=
  Nat.add_le_add_left (ttSlack_mono i h tt) _

/-- Pushing an entry at the current clock does not change closed-plus-slack for
any job index. -/
theorem closedSlack_update (j t i0 : Nat) (tt : List (Nat × Nat)) :
    closedSlack j t (if tt.getLast?.map Prod.snd = some i0 then tt else tt ++ [(t, i0)]) =
      closedSlack j t tt := by
  split
  · rfl
  · unfold closedSlack
    rw [closedTime_append]
    have hsl : ttSlack j t (tt ++ [(t, i0)]) = 0 := by
      unfold ttSlack
      rw [List.getLast?_concat]
      simp
    rw [hsl]
    exact Nat.add_zero _

theorem pushBy_length {α : Type} (c : α → α → Ordering) (x : α) (h : List α) :
    (pushBy c x h).length = h.length + 1 := by
  have := (pushBy_perm c x h).length_eq
  simpa using this

theorem updated_tt_getLast (tt : List (Nat × Nat)) (t i0 : Nat) :
    (if tt.getLast?.map Prod.snd = some i0 then tt
     else tt ++ [(t, i0)]).getLast?.map Prod.snd = some i0 := by
  split
  · assumption
  · rw [List.getLast?_concat]
    rfl

theorem closedSlack_last_advance (i : Nat) (tt : List (Nat × Nat)) {t t' : Nat}
    (hlast : tt.getLast?.map Prod.snd = some i) (hle : ∀ e ∈ tt, e.1 ≤ t) (ht : t ≤ t') :
    closedSlack i t' tt = closedSlack i t tt + (t' - t) := by
  unfold closedSlack ttSlack
  cases hl : tt.getLast? with
  | none =>
    rw [hl] at hlast
    simp at hlast
  | some x =>
    have hx2 : x.2 = i := by
      rw [hl] at hlast
      simpa using hlast
    have hx1 : x.1 ≤ t := (hle x (List.mem_of_getLast?_eq_some hl))
    dsimp only
    rw [if_pos hx2, if_pos hx2]
    omega

theorem mem_map_fst_pushBy (y : Nat × Job) (h : List (Nat × Job)) (i : Nat) :
    i ∈ (pushBy preCmp y h).map Prod.fst ↔ i = y.1 ∨ i ∈ h.map Prod.fst := by
  rw [((pushBy_perm preCmp y h).map Prod.fst).mem_iff]
  exact List.mem_cons

/-- The conservation invariant of the preemptive loop: once the run finishes,
every job index that does not own the very last timetable entry has closed
attributed time at least its processing time. -/
theorem preLoop_conserve (a : List Job) :
    ∀ fuel rem heap t tt,
      muOf rem.length heap.length (rem.countP fun x => decide (t < x.2.delivery_time)) < fuel →
      (∀ x ∈ rem, a.get? x.1 = some x.2) →
      (rem.map Prod.fst ++ heap.map Prod.fst).Nodup →
      (∀ e ∈ tt, e.1 ≤ t) →
      (∀ x ∈ heap, procOf a x.1 ≤ closedSlack x.1 t tt + x.2.processing_time) →
      (∀ i, i < a.length → i ∉ rem.map Prod.fst → i ∉ heap.map Prod.fst →
        procOf a i ≤ closedSlack i t tt) →
      ∀ i, i < a.length →
        (preLoop fuel rem heap t tt).getLast?.map Prod.snd ≠ some i →
        procOf a i ≤ closedTime i (preLoop fuel rem heap t tt) := by
  intro fuel
  induction fuel with
  | zero => intro rem heap t tt hmu; exact absurd hmu (Nat.not_lt_zero _)
  | succ f ih =>
    intro rem heap t tt hmu hrem hnd htt hheap hdone
    rw [preLoop]
    have hsplit : (rem.takeWhile fun x => x.2.delivery_time ≤ t) ++
        (rem.dropWhile fun x => x.2.delivery_time ≤ t) = rem :=
      List.takeWhile_append_dropWhile _ _
    have hlensplit : (rem.takeWhile fun x => x.2.delivery_time ≤ t).length +
        (rem.dropWhile fun x => x.2.delivery_time ≤ t).length = rem.length :=
      takeWhile_dropWhile_length _ _
    have hmapsplit : (rem.takeWhile fun x => x.2.delivery_time ≤ t).map Prod.fst ++
        (rem.dropWhile fun x => x.2.delivery_time ≤ t).map Prod.fst = rem.map Prod.fst := by
      rw [← List.map_append, hsplit]
    cases hh : pushAllBy preCmp heap (rem.takeWhile fun x => x.2.delivery_time ≤ t) with
    | nil =>
      have hlen0 : heap.length + (rem.takeWhile fun x => x.2.delivery_time ≤ t).length = 0 := by
        have := congrArg List.length hh
        rw [pushAllBy_length] at this
        simpa using this
      have hheapnil : heap = [] := List.length_eq_zero.1 (by omega)
      have hrelnil : (rem.takeWhile fun x => x.2.delivery_time ≤ t) = [] :=
        List.length_eq_zero.1 (by omega)
      have hrest_eq : rem.dropWhile (fun x => x.2.delivery_time ≤ t) = rem :=
        dropWhile_eq_self_of_takeWhile_nil _ _ hrelnil
      cases hr : rem.dropWhile (fun x => x.2.delivery_time ≤ t) with
      | nil =>
        have hremnil : rem = [] := by rw [← hrest_eq, hr]
        dsimp only
        intro i hi hlast
        have hdone_i := hdone i hi (by rw [hremnil]; simp) (by rw [hheapnil]; simp)
        have hsl0 : ttSlack i t tt = 0 := ttSlack_eq_zero i t tt hlast
        unfold closedSlack at hdone_i
        omega
      | cons hd2 rest =>
        obtain ⟨k, nj⟩ := hd2
        have hrem2 : rem = (k, nj) :: rest := by rw [← hrest_eq, hr]
        have hjump : t < nj.delivery_time := by
          have := dropWhile_head_false _ _ _ rem hr
          simpa using this
        dsimp only
        refine ih _ _ _ _ ?_ ?_ ?_ ?_ ?_ ?_
        · have hcount : ((k, nj) :: rest).countP
              (fun x => decide (nj.delivery_time < x.2.delivery_time)) <
              ((k, nj) :: rest).countP (fun x => decide (t < x.2.delivery_time)) := by
            have := countP_arrival_lt (fun x : Nat × Job => x.2.delivery_time) t (k, nj) rest hjump
            simpa using this
          refine Nat.lt_of_lt_of_le (muOf_lt_of_eq ?_ ?_) (Nat.lt_succ_iff.1 hmu)
          · rw [hrem2, hheapnil]
          · rw [hrem2]
            exact hcount
        · intro x hx
          refine hrem x ?_
          rw [← hr] at hx
          exact List.dropWhile_subset _ hx
        · rw [hheapnil] at hnd
          rw [← hrem2]
          simpa using hnd
        · intro e he
          exact Nat.le_trans (htt e he) (Nat.le_of_lt hjump)
        · intro x hx
          cases hx
        · intro i hi h1 h2
          refine Nat.le_trans (hdone i hi ?_ ?_) (closedSlack_mono i (Nat.le_of_lt hjump) tt)
          · rw [hrem2]
            exact h1
          · rw [hheapnil]
            simp
    | cons hd heap2 =>
      obtain ⟨i0, sj⟩ := hd
      have hpermheap : (((i0, sj) :: heap2)).Perm
          (heap ++ (rem.takeWhile fun x => x.2.delivery_time ≤ t)) := by
        rw [← hh]
        exact pushAllBy_perm _ _ _
      have hlen : heap2.length + 1 = heap.length +
          (rem.takeWhile fun x => x.2.delivery_time ≤ t).length := by
        have := hpermheap.length_eq
        rw [List.length_append] at this
        simpa using this
      have hrelJ : ∀ x ∈ (rem.takeWhile fun x => x.2.delivery_time ≤ t),
          a.get? x.1 = some x.2 :=
        fun x hx => hrem x (List.takeWhile_subset _ hx)
      have hmapperm : ((((i0, sj) :: heap2)).map Prod.fst).Perm
          (heap.map Prod.fst ++ (rem.takeWhile fun x => x.2.delivery_time ≤ t).map Prod.fst) := by
        have := hpermheap.map Prod.fst
        rw [List.map_append] at this
        exact this
      have hnd' : ((rem.dropWhile fun x => x.2.delivery_time ≤ t).map Prod.fst ++
          ((i0, sj) :: heap2).map Prod.fst).Nodup := by
        have hperm2 : ((rem.dropWhile fun x => x.2.delivery_time ≤ t).map Prod.fst ++
            ((i0, sj) :: heap2).map Prod.fst).Perm
            (rem.map Prod.fst ++ heap.map Prod.fst) := by
          refine (List.Perm.append_left _ hmapperm).trans ?_
          rw [← List.append_assoc]
          refine List.perm_append_comm.trans ?_
          rw [← List.append_assoc, hmapsplit]
        exact hperm2.symm.nodup hnd
      have hheap' : ∀ x ∈ ((i0, sj) :: heap2),
          procOf a x.1 ≤ closedSlack x.1 t tt + x.2.processing_time := by
        intro x hx
        rcases List.mem_append.1 (hpermheap.mem_iff.1 hx) with hx | hx
        · exact hheap x hx
        · have hj := hrelJ x hx
          have hgd := (get?_imp a x.1 x.2 hj).2
          unfold procOf
          rw [hgd]
          omega
      have htt2le : ∀ e ∈ (if tt.getLast?.map Prod.snd = some i0 then tt
          else tt ++ [(t, i0)]), e.1 ≤ t := by
        split
        · exact htt
        · intro e he
          rcases List.mem_append.1 he with he | he
          · exact htt e he
          · rcases List.mem_singleton.1 he with rfl
            exact Nat.le_refl t
      have hlast2 : (if tt.getLast?.map Prod.snd = some i0 then tt
          else tt ++ [(t, i0)]).getLast?.map Prod.snd = some i0 :=
        updated_tt_getLast tt t i0
      have hheap2cs : ∀ x ∈ ((i0, sj) :: heap2),
          procOf a x.1 ≤ closedSlack x.1 t (if tt.getLast?.map Prod.snd = some i0 then tt
            else tt ++ [(t, i0)]) + x.2.processing_time := by
        intro x hx
        rw [closedSlack_update]
        exact hheap' x hx
      have hdone2 : ∀ i, i < a.length → i ∉ rem.map Prod.fst → i ∉ heap.map Prod.fst →
          procOf a i ≤ closedSlack i t (if tt.getLast?.map Prod.snd = some i0 then tt
            else tt ++ [(t, i0)]) := by
        intro i hi h1 h2
        rw [closedSlack_update]
        exact hdone i hi h1 h2
      have hnotmem : ∀ i, i ≠ i0 → i ∉ heap2.map Prod.fst →
          i ∉ rem.map Prod.fst → True := fun _ _ _ _ => trivial
      -- old-done transport for indices absent from the new containers
      have holddone : ∀ i, i < a.length → i ≠ i0 →
          i ∉ (rem.dropWhile fun x => x.2.delivery_time ≤ t).map Prod.fst →
          i ∉ heap2.map Prod.fst →
          procOf a i ≤ closedSlack i t (if tt.getLast?.map Prod.snd = some i0 then tt
            else tt ++ [(t, i0)]) := by
        intro i hi hii0 h1 h2
        have hpm : i ∉ ((i0, sj) :: heap2).map Prod.fst := by
          intro hmem
          rcases List.mem_cons.1 hmem with hmem | hmem
          · exact hii0 hmem
          · exact h2 hmem
        refine hdone2 i hi ?_ ?_
        · intro hmem
          rw [← hmapsplit] at hmem
          rcases List.mem_append.1 hmem with hmem | hmem
          · exact hpm (hmapperm.symm.subset (List.mem_append_right _ hmem))
          · exact h1 hmem
        · intro hmem
          exact hpm (hmapperm.symm.subset (List.mem_append_left _ hmem))
      -- the no-preemption successor state, shared by two of the three branches
      have mainA : ∀ i, i < a.length →
          (preLoop f (rem.dropWhile fun x => x.2.delivery_time ≤ t) heap2
            (t + sj.processing_time)
            (if tt.getLast?.map Prod.snd = some i0 then tt
             else tt ++ [(t, i0)])).getLast?.map Prod.snd ≠ some i →
          procOf a i ≤ closedTime i
            (preLoop f (rem.dropWhile fun x => x.2.delivery_time ≤ t) heap2
              (t + sj.processing_time)
              (if tt.getLast?.map Prod.snd = some i0 then tt
               else tt ++ [(t, i0)])) := by
        refine ih _ _ _ _ ?_ ?_ ?_ ?_ ?_ ?_
        · refine Nat.lt_of_lt_of_le
            (muOf_lt_of_lt ?_ (List.countP_le_length _)) (Nat.lt_succ_iff.1 hmu)
          omega
        · exact fun x hx => hrem x (List.dropWhile_subset _ hx)
        · refine List.Nodup.sublist ?_ hnd'
          exact List.Sublist.append_left (List.sublist_cons_self _ _) _
        · exact fun e he => Nat.le_trans (htt2le e he) (Nat.le_add_right t _)
        · intro x hx
          refine Nat.le_trans (hheap2cs x (List.mem_cons_of_mem _ hx)) ?_
          exact Nat.add_le_add_right
            (closedSlack_mono x.1 (Nat.le_add_right t _) _) _
        · intro i hi h1 h2
          by_cases hii0 : i = i0
          · subst hii0
            have hbase := hheap2cs (i, sj) (List.mem_cons_self _ _)
            have hadv := closedSlack_last_advance i
              (if tt.getLast?.map Prod.snd = some i then tt else tt ++ [(t, i)])
              hlast2 htt2le (Nat.le_add_right t sj.processing_time)
            rw [hadv]
            dsimp only at hbase
            omega
          · exact Nat.le_trans (holddone i hi hii0 h1 h2)
              (closedSlack_mono i (Nat.le_add_right t _) _)
      cases hr : rem.dropWhile (fun x => x.2.delivery_time ≤ t) with
      | nil =>
        dsimp only
        rw [hr] at mainA
        exact mainA
      | cons hd2 rest =>
        obtain ⟨k, nj⟩ := hd2
        have hjump : t < nj.delivery_time := by
          have := dropWhile_head_false _ _ _ rem hr
          simpa using this
        dsimp only
        split
        · next hcond =>
          -- preemption branch
          rw [hr] at hnd' holddone
          refine ih _ _ _ _ ?_ ?_ ?_ ?_ ?_ ?_
          · -- measure
            rw [pushBy_length]
            by_cases hrelnil : (rem.takeWhile fun x => x.2.delivery_time ≤ t) = []
            · have hrest_eq : rem.dropWhile (fun x => x.2.delivery_time ≤ t) = rem :=
                dropWhile_eq_self_of_takeWhile_nil _ _ hrelnil
              have hrem2 : rem = (k, nj) :: rest := by rw [← hrest_eq, hr]
              have hcount : ((k, nj) :: rest).countP
                  (fun x => decide (nj.delivery_time < x.2.delivery_time)) <
                  ((k, nj) :: rest).countP (fun x => decide (t < x.2.delivery_time)) := by
                have := countP_arrival_lt (fun x : Nat × Job => x.2.delivery_time)
                  t (k, nj) rest hjump
                simpa using this
              refine Nat.lt_of_lt_of_le (muOf_lt_of_eq ?_ ?_) (Nat.lt_succ_iff.1 hmu)
              · have h0 : (rem.takeWhile fun x => x.2.delivery_time ≤ t).length = 0 := by
                  rw [hrelnil]
                  rfl
                rw [hrem2] at hlensplit ⊢
                omega
              · rw [hrem2]
                exact hcount
            · have h1 : 0 < (rem.takeWhile fun x => x.2.delivery_time ≤ t).length :=
                List.length_pos.2 hrelnil
              have h2 : ((k, nj) :: rest).length =
                  (rem.dropWhile fun x => x.2.delivery_time ≤ t).length := by rw [hr]
              refine Nat.lt_of_lt_of_le
                (muOf_lt_of_lt ?_ (List.countP_le_length _)) (Nat.lt_succ_iff.1 hmu)
              simp only [List.length_cons] at h2 ⊢
              omega
          · intro x hx
            refine hrem x ?_
            rw [← hr] at hx
            exact List.dropWhile_subset _ hx
          · refine List.Perm.nodup ?_ hnd'
            refine List.Perm.append_left _ ?_
            exact ((pushBy_perm preCmp
              (i0, { sj with processing_time := t + sj.processing_time - nj.delivery_time })
              heap2).map Prod.fst).symm
          · exact fun e he => Nat.le_trans (htt2le e he) (Nat.le_of_lt hjump)
          · intro x hx
            rcases (mem_pushBy preCmp _ heap2 x).1 hx with rfl | hx
            · -- the preempted copy with its remaining processing time
              have hbase := hheap2cs (i0, sj) (List.mem_cons_self _ _)
              have hadv := closedSlack_last_advance i0
                (if tt.getLast?.map Prod.snd = some i0 then tt else tt ++ [(t, i0)])
                hlast2 htt2le (Nat.le_of_lt hjump)
              dsimp only
              rw [hadv]
              dsimp only at hbase
              omega
            · refine Nat.le_trans (hheap2cs x (List.mem_cons_of_mem _ hx)) ?_
              exact Nat.add_le_add_right (closedSlack_mono x.1 (Nat.le_of_lt hjump) _) _
          · intro i hi h1 h2
            have hii0 : i ≠ i0 := by
              intro he
              subst he
              exact h2 ((mem_map_fst_pushBy _ heap2 i).2 (Or.inl rfl))
            have h2' : i ∉ heap2.map Prod.fst := by
              intro hmem
              exact h2 ((mem_map_fst_pushBy _ heap2 i).2 (Or.inr hmem))
            exact Nat.le_trans (holddone i hi hii0 h1 h2')
              (closedSlack_mono i (Nat.le_of_lt hjump) _)
        · -- no preemption, with remaining jobs
          rw [hr] at mainA
          exact mainA

theorem indexed_map_fst : ∀ (k : Nat) (l : List Job),
    (indexed k l).map Prod.fst = List.range' k l.length := by
  intro k l
  induction l generalizing k with
  | nil => rfl
  | cons x xs ih =>
    rw [indexed, List.length_cons, List.range'_succ, List.map_cons, ih]

/-- Claim C2 amended: every job index is attributed at least its processing
time; by conservation_counterexample equality can fail when the machine sits
idle inside an attributed interval. -/
theorem conservation_amended (jobs : List Job) :
    ∀ i, i < (schrage_preemptive jobs).jobs.length →
      ((schrage_preemptive jobs).jobs.getD i dummyJob).processing_time ≤
        attributedTime (schrage_preemptive jobs) i := by
  intro i hi
  unfold attributedTime
  by_cases hl : (schrage_preemptive jobs).timetable.getLast?.map Prod.snd = some i
  · rw [if_pos hl]
    omega
  · rw [if_neg hl]
    have hi' : i < (sortedByDelivery jobs).length := hi
    have hkey : procOf (sortedByDelivery jobs) i ≤
        closedTime i (schrage_preemptive jobs).timetable := by
      refine preLoop_conserve (sortedByDelivery jobs) (loopFuel jobs.length)
        (indexed 0 (sortedByDelivery jobs)) [] 0 [] ?_ ?_ ?_ ?_ ?_ ?_ i hi' hl
      · have h1 : (indexed 0 (sortedByDelivery jobs)).countP
            (fun x => decide (0 < x.2.delivery_time)) ≤ jobs.length := by
          have h2 : (indexed 0 (sortedByDelivery jobs)).countP
              (fun x => decide (0 < x.2.delivery_time)) ≤
              (indexed 0 (sortedByDelivery jobs)).length := by
            apply List.countP_le_length
          rw [indexed_length, (sortedByDelivery_perm jobs).length_eq] at h2
          exact h2
        have h3 : (indexed 0 (sortedByDelivery jobs)).length = jobs.length := by
          rw [indexed_length, (sortedByDelivery_perm jobs).length_eq]
        rw [h3, List.length_nil]
        exact muOf_init_lt_loopFuel _ _ h1
      · intro x hx
        have h := (mem_indexed (sortedByDelivery jobs) 0 x hx).2
        simpa using h
      · rw [indexed_map_fst, List.map_nil, List.append_nil]
        exact List.nodup_range' 0 _
      · intro e he
        cases he
      · intro x hx
        cases hx
      · intro i' hi'' h1 h2
        exfalso
        apply h1
        rw [indexed_map_fst]
        rw [List.mem_range']
        exact ⟨i', hi'', by omega⟩
    rw [Nat.add_zero]
    exact hkey

/-- Witness for the amended C2 at a one-job input. -/
theorem conservation_amended_witness :
    ((schrage_preemptive [Job.mk 5 2 3]).jobs.getD 0 dummyJob).processing_time ≤
      attributedTime (schrage_preemptive [Job.mk 5 2 3]) 0 :=
  conservation_amended [Job.mk 5 2 3] 0 (by decide)

/-! ### Claim C1: the preemptive makespan never exceeds the heuristic one -/

theorem preCmp_gt_iff (x y : Nat × Job) :
    preCmp x y = Ordering.gt ↔
      (y.2.cooldown_time < x.2.cooldown_time ∨
        (x.2.cooldown_time = y.2.cooldown_time ∧
          (y.2.processing_time < x.2.processing_time ∨
            (x.2.processing_time = y.2.processing_time ∧ y.1 < x.1)))) := by
  unfold preCmp
  rw [Ordering.then_eq_gt, SchrageJob.cmp_eq_gt_iff, SchrageJob.cmp_eq_eq_iff,
    Nat.compare_eq_gt]
  omega

theorem preCmp_lt_iff (x y : Nat × Job) :
    preCmp x y = Ordering.lt ↔
      (x.2.cooldown_time < y.2.cooldown_time ∨
        (x.2.cooldown_time = y.2.cooldown_time ∧
          (x.2.processing_time < y.2.processing_time ∨
            (x.2.processing_time = y.2.processing_time ∧ x.1 < y.1)))) := by
  unfold preCmp
  rw [Ordering.then_eq_lt, SchrageJob.cmp_eq_lt_iff, SchrageJob.cmp_eq_gt_iff,
    SchrageJob.cmp_eq_eq_iff, Nat.compare_eq_lt]
  omega

theorem pushBy_sorted (x : Nat × Job) :
    ∀ h : List (Nat × Job), List.Pairwise (fun a b => preCmp a b ≠ Ordering.lt) h →
      List.Pairwise (fun a b => preCmp a b ≠ Ordering.lt) (pushBy preCmp x h)
  | [], _ => by
    unfold pushBy
    exact List.pairwise_singleton _ _
  | y :: ys, hp => by
    rw [pushBy]
    obtain ⟨hy, hys⟩ := List.pairwise_cons.1 hp
    split
    · next hgt =>
      refine List.pairwise_cons.2 ⟨?_, hp⟩
      intro z hz
      rw [preCmp_gt_iff] at hgt
      rcases List.mem_cons.1 hz with rfl | hz
      · simp only [ne_eq, preCmp_lt_iff]
        omega
      · have hyz := hy z hz
        simp only [ne_eq, preCmp_lt_iff] at hyz ⊢
        omega
    · next hngt =>
      refine List.pairwise_cons.2 ⟨?_, pushBy_sorted x ys hys⟩
      intro z hz
      rw [preCmp_gt_iff] at hngt
      rcases (mem_pushBy preCmp x ys z).1 hz with rfl | hz
      · simp only [ne_eq, preCmp_lt_iff]
        omega
      · exact hy z hz

theorem pushAllBy_sorted :
    ∀ (rel h : List (Nat × Job)),
      List.Pairwise (fun a b => preCmp a b ≠ Ordering.lt) h →
      List.Pairwise (fun a b => preCmp a b ≠ Ordering.lt) (pushAllBy preCmp h rel)
  | [], _, hp => hp
  | x :: xs, h, hp => pushAllBy_sorted xs (pushBy preCmp x h) (pushBy_sorted x h hp)

theorem cooldown_le_of_not_lt {x z : Nat × Job} (h : preCmp x z ≠ Ordering.lt) :
    z.2.cooldown_time ≤ x.2.cooldown_time := by
  simp only [ne_eq, preCmp_lt_iff] at h
  omega

theorem heapWork_cons (th : Nat) (x : Nat × Job) (h : List (Nat × Job)) :
    heapWork th (x :: h) =
      (if th ≤ x.2.cooldown_time then x.2.processing_time else 0) + heapWork th h := by
  unfold heapWork
  rw [List.filter_cons]
  by_cases hq : th ≤ x.2.cooldown_time
  · simp [hq]
  · simp [hq]

theorem heapWork_perm (th : Nat) {h1 h2 : List (Nat × Job)} (hp : h1.Perm h2) :
    heapWork th h1 = heapWork th h2 :=
  ((hp.filter _).map _).sum_eq

theorem heapWork_append (th : Nat) (h g : List (Nat × Job)) :
    heapWork th (h ++ g) = heapWork th h + heapWork th g := by
  unfold heapWork
  rw [List.filter_append, List.map_append, List.sum_append]

theorem getD_set_self (l : List Nat) (i v : Nat) (h : i < l.length) :
    (l.set i v).getD i 0 = v := by
  rw [List.getD_eq_getElem?_getD, List.getElem?_set_self h]
  rfl

theorem getD_set_ne (l : List Nat) (i j v : Nat) (h : i ≠ j) :
    (l.set i v).getD j 0 = l.getD j 0 := by
  rw [List.getD_eq_getElem?_getD, List.getD_eq_getElem?_getD, List.getElem?_set_ne h]

theorem getD_map_proc (a : List Job) (i : Nat) (hi : i < a.length) :
    (a.map fun j => j.processing_time).getD i 0 = procOf a i := by
  unfold procOf
  rw [List.getD_eq_getElem?_getD, List.getD_eq_getElem?_getD, List.getElem?_map]
  cases hq : a[i]? with
  | none =>
    rw [List.getElem?_eq_none_iff] at hq
    omega
  | some x => rfl

theorem cMaxGo_ge (a : List Job) :
    ∀ (entries : List (Nat × Nat)) (rems : List Nat) (prev : Nat × Nat) (m : Nat),
      m ≤ JobSchedule.cMaxGo a rems prev m entries
  | [], rems, prev, m => Nat.le_max_left _ _
  | (time, idx) :: tl, rems, prev, m => by
    simp only [JobSchedule.cMaxGo]
    exact Nat.le_trans (Nat.le_max_left _ _) (cMaxGo_ge a tl _ (time, idx) _)

/-- Appending one entry to the replay of JobSchedule::c_max adds exactly one
more makespan candidate: the entry time plus the remaining processing time at
that point plus the cooldown time.  The remaining processing time is the
processing time minus all closed intervals attributed so far, tracked by the
abstract consumption function csf for what happened before prev. -/
theorem cMaxGo_append (a : List Job) :
    ∀ (entries : List (Nat × Nat)) (rems : List Nat) (prev : Nat × Nat) (m u i : Nat)
      (csf : Nat → Nat),
      prev.2 < a.length →
      i < a.length →
      (∀ e ∈ entries, e.2 < a.length) →
      rems.length = a.length →
      (∀ i', i' < a.length → rems.getD i' 0 = procOf a i' - csf i') →
      JobSchedule.cMaxGo a rems prev m (entries ++ [(u, i)]) =
        Nat.max (JobSchedule.cMaxGo a rems prev m entries)
          (u + (procOf a i - (csf i + closedTime i ((prev :: entries) ++ [(u, i)]))) +
            (a.getD i dummyJob).cooldown_time) := by
  intro entries
  induction entries with
  | nil =>
    intro rems prev m u i csf hprev hi _ hlen hcorr
    obtain ⟨tp, ip⟩ := prev
    simp only [List.nil_append, List.cons_append, JobSchedule.cMaxGo]
    have hclosed : closedTime i [(tp, ip), (u, i)] = (if ip = i then u - tp else 0) := by
      rw [closedTime]
      rfl
    by_cases hip : ip = i
    · subst hip
      rw [getD_set_self rems ip _ (by omega)]
      rw [hclosed, hcorr ip hi, if_pos rfl]
      congr 1
      omega
    · rw [getD_set_ne rems ip i _ hip]
      rw [hclosed, hcorr i hi, if_neg hip]
      congr 1
  | cons e tl ih =>
    intro rems prev m u i csf hprev hi hidx hlen hcorr
    obtain ⟨tp, ip⟩ := prev
    obtain ⟨te, ie⟩ := e
    simp only [List.cons_append, JobSchedule.cMaxGo, List.append_eq]
    have hcorr' : ∀ i', i' < a.length →
        (rems.set ip (rems.getD ip 0 - (te - tp))).getD i' 0 =
          procOf a i' - (if i' = ip then csf i' + (te - tp) else csf i') := by
      intro i' hi'
      by_cases h : i' = ip
      · subst h
        rw [getD_set_self rems i' _ (by omega), hcorr i' hi', if_pos rfl]
        omega
      · rw [getD_set_ne rems ip i' _ (fun he => h he.symm), hcorr i' hi', if_neg h]
    have hstep := ih (rems.set ip (rems.getD ip 0 - (te - tp))) (te, ie)
      (Nat.max m (tp + rems.getD ip 0 + (a.getD ip dummyJob).cooldown_time)) u i
      (fun i' => if i' = ip then csf i' + (te - tp) else csf i')
      (hidx (te, ie) (List.mem_cons_self _ _)) hi
      (fun e he => hidx e (List.mem_cons_of_mem _ he))
      (by rw [List.length_set]; exact hlen) hcorr'
    rw [hstep]
    congr 1
    have hclose : closedTime i ((tp, ip) :: (te, ie) :: (tl ++ [(u, i)])) =
        (if ip = i then te - tp else 0) + closedTime i ((te, ie) :: (tl ++ [(u, i)])) := by
      rw [closedTime]
    show u + (procOf a i - ((if i = ip then csf i + (te - tp) else csf i) +
        closedTime i ((te, ie) :: (tl ++ [(u, i)])))) + (a.getD i dummyJob).cooldown_time =
      u + (procOf a i - (csf i + closedTime i ((tp, ip) :: (te, ie) :: (tl ++ [(u, i)])))) +
        (a.getD i dummyJob).cooldown_time
    rw [hclose]
    split_ifs <;> omega

/-- Appending an entry to a schedule adds exactly one makespan candidate to
JobSchedule.c_max: the entry time plus the remaining processing time of its
job at the end of the timetable plus the cooldown time. -/
theorem cmax_snoc (a : List Job) (tt : List (Nat × Nat)) (u i : Nat)
    (htt : ∀ e ∈ tt, e.2 < a.length) (hi : i < a.length) :
    JobSchedule.c_max ⟨a, tt ++ [(u, i)]⟩ =
      Nat.max (JobSchedule.c_max ⟨a, tt⟩)
        (u + (procOf a i - closedTime i (tt ++ [(u, i)])) +
          (a.getD i dummyJob).cooldown_time) := by
  cases tt with
  | nil =>
    show JobSchedule.c_max ⟨a, [(u, i)]⟩ = _
    unfold JobSchedule.c_max
    dsimp only
    simp only [JobSchedule.cMaxGo]
    rw [getD_map_proc a i hi]
    have h0 : closedTime i ([] ++ [(u, i)]) = 0 := rfl
    rw [h0, Nat.sub_zero]
  | cons e0 tl =>
    obtain ⟨t0, i0⟩ := e0
    show JobSchedule.c_max ⟨a, (t0, i0) :: (tl ++ [(u, i)])⟩ = _
    unfold JobSchedule.c_max
    dsimp only
    have hstep := cMaxGo_append a tl (a.map fun j => j.processing_time) (t0, i0) 0 u i
      (fun _ => 0) (htt (t0, i0) (List.mem_cons_self _ _)) hi
      (fun e he => htt e (List.mem_cons_of_mem _ he))
      (by rw [List.length_map])
      (fun i' hi' => by rw [getD_map_proc a i' hi']; rfl)
    rw [hstep]
    congr 2
    rw [Nat.zero_add]

/-- A strictly increasing list of in-bounds indices picks out a sublist. -/
theorem map_getD_sublist (a : List Job) :
    ∀ (S : List Nat) (k : Nat), List.Pairwise (· < ·) S →
      (∀ i' ∈ S, k ≤ i' ∧ i' < a.length) →
      (S.map fun i' => a.getD i' dummyJob).Sublist (a.drop k) := by
  intro S
  induction S with
  | nil => intro k _ _; exact List.nil_sublist _
  | cons i S' ih =>
    intro k hpw hbound
    obtain ⟨hk, hlen⟩ := hbound i (List.mem_cons_self _ _)
    have hdropi : a.drop i = a.getD i dummyJob :: a.drop (i + 1) := by
      rw [List.drop_eq_getElem_cons hlen]
      congr 1
      rw [List.getD_eq_getElem?_getD, List.getElem?_eq_getElem hlen]
      rfl
    have htail : (S'.map fun i' => a.getD i' dummyJob).Sublist (a.drop (i + 1)) := by
      refine ih (i + 1) (List.Pairwise.sublist (List.sublist_cons_self _ _) hpw) ?_
      intro i' hi'
      have h1 := (List.pairwise_cons.1 hpw).1 i' hi'
      have h2 := hbound i' (List.mem_cons_of_mem _ hi')
      omega
    have hmain : ((i :: S').map fun i' => a.getD i' dummyJob).Sublist (a.drop i) := by
      rw [List.map_cons, hdropi]
      exact List.Sublist.cons₂ _ htail
    refine hmain.trans ?_
    have : a.drop i = (a.drop k).drop (i - k) := by
      rw [List.drop_drop]
      congr 1
      omega
    rw [this]
    exact List.drop_sublist _ _

theorem jobList_cMaxGo_ge (l : List Job) :
    ∀ m s, m ≤ JobList.cMaxGo m s l := by
  induction l with
  | nil => intro m s; exact Nat.le_refl m
  | cons j tl ih =>
    intro m s
    simp only [JobList.cMaxGo]
    exact Nat.le_trans (Nat.le_max_left _ _) (ih _ _)

/-- The block lower bound for the sequential makespan: any multiset of jobs
contained in the list, all released at or after tau and all with cooldown at
least qc, forces the makespan to at least tau (or the current clock) plus the
total processing time plus qc. -/
theorem cMaxGo_block_bound :
    ∀ (L : List Job) (m s : Nat) (S : List Job) (tau qc : Nat),
      (S : Multiset Job) ≤ (L : Multiset Job) →
      S ≠ [] →
      (∀ w ∈ S, tau ≤ w.delivery_time) →
      (∀ w ∈ S, qc ≤ w.cooldown_time) →
      Nat.max s tau + (S.map fun w => w.processing_time).sum + qc ≤
        JobList.cMaxGo m s L := by
  intro L
  induction L with
  | nil =>
    intro m s S tau qc hle hne _ _
    exfalso
    apply hne
    have h0 : (S : Multiset Job) = 0 := Multiset.le_zero.1 hle
    exact (Multiset.coe_eq_zero S).1 h0
  | cons j tl ih =>
    intro m s S tau qc hle hne hdel hq
    simp only [JobList.cMaxGo]
    by_cases hj : j ∈ S
    · have hS : S.Perm (j :: S.erase j) := List.perm_cons_erase hj
      have hsum : (S.map fun w => w.processing_time).sum =
          j.processing_time + ((S.erase j).map fun w => w.processing_time).sum := by
        have := (hS.map fun w => w.processing_time).sum_eq
        rw [this]
        rfl
      have herase : ((S.erase j : List Job) : Multiset Job) ≤ (tl : Multiset Job) := by
        have h1 : ((S : Multiset Job).erase j) ≤ ((j :: tl : List Job) : Multiset Job).erase j :=
          Multiset.erase_le_erase j hle
        rw [Multiset.coe_erase] at h1
        have h2 : ((j :: tl : List Job) : Multiset Job) = j ::ₘ (tl : Multiset Job) := rfl
        rw [h2, Multiset.erase_cons_head] at h1
        exact h1
      have hdj : tau ≤ j.delivery_time := hdel j hj
      have hqj : qc ≤ j.cooldown_time := hq j hj
      by_cases hE : S.erase j = []
      · -- the singleton case: the candidate recorded for j is already enough
        have hsum0 : ((S.erase j).map fun w => w.processing_time).sum = 0 := by
          rw [hE]
          rfl
        rw [hsum, hsum0]
        refine Nat.le_trans ?_
          (Nat.le_trans (Nat.le_max_right m _) (jobList_cMaxGo_ge tl _ _))
        split
        · next hlt =>
          have h1 : Nat.max s tau ≤ j.delivery_time := Nat.max_le.2 ⟨by omega, hdj⟩
          omega
        · next hlt =>
          have h1 : Nat.max s tau ≤ s := Nat.max_le.2 ⟨Nat.le_refl s, by omega⟩
          omega
      · have hrec := ih (Nat.max m ((if s < j.delivery_time then
            j.delivery_time + j.processing_time else s + j.processing_time) + j.cooldown_time))
            (if s < j.delivery_time then j.delivery_time + j.processing_time
              else s + j.processing_time)
            (S.erase j) tau qc herase hE
            (fun w hw => hdel w (List.mem_of_mem_erase hw))
            (fun w hw => hq w (List.mem_of_mem_erase hw))
        refine Nat.le_trans ?_ hrec
        rw [hsum]
        split
        · next hlt =>
          have h1 : Nat.max s tau ≤ j.delivery_time := Nat.max_le.2 ⟨by omega, hdj⟩
          have h3 : j.delivery_time + j.processing_time ≤
              Nat.max (j.delivery_time + j.processing_time) tau := Nat.le_max_left _ _
          omega
        · next hlt =>
          have h1 : Nat.max s tau ≤ s := Nat.max_le.2 ⟨Nat.le_refl s, by omega⟩
          have h3 : s + j.processing_time ≤
              Nat.max (s + j.processing_time) tau := Nat.le_max_left _ _
          omega
    · have hsub : (S : Multiset Job) ≤ (tl : Multiset Job) := by
        rw [Multiset.le_iff_count]
        intro b
        have hc := Multiset.le_iff_count.1 hle b
        by_cases hb : b = j
        · subst hb
          have h0 : Multiset.count b (S : Multiset Job) = 0 := by
            rw [Multiset.coe_count]
            exact List.count_eq_zero.2 hj
          omega
        · have h2 : Multiset.count b ((j :: tl : List Job) : Multiset Job) =
              Multiset.count b (tl : Multiset Job) := by
            have h3 : ((j :: tl : List Job) : Multiset Job) = j ::ₘ (tl : Multiset Job) := rfl
            rw [h3, Multiset.count_cons_of_ne hb]
          omega
      have hrec := ih (Nat.max m ((if s < j.delivery_time then
          j.delivery_time + j.processing_time else s + j.processing_time) + j.cooldown_time))
          (if s < j.delivery_time then j.delivery_time + j.processing_time
            else s + j.processing_time)
          S tau qc hsub hne hdel hq
      refine Nat.le_trans ?_ hrec
      split
      · next hlt =>
        have h1 : Nat.max s tau ≤ Nat.max (j.delivery_time + j.processing_time) tau :=
          Nat.max_le.2 ⟨Nat.le_trans (by omega) (Nat.le_max_left _ _), Nat.le_max_right _ _⟩
        omega
      · next hlt =>
        have h1 : Nat.max s tau ≤ Nat.max (s + j.processing_time) tau :=
          Nat.max_le.2 ⟨Nat.le_trans (by omega) (Nat.le_max_left _ _), Nat.le_max_right _ _⟩
        omega

theorem heapWork_zero (th : Nat) (h : List (Nat × Job))
    (hall : ∀ x ∈ h, ¬ th ≤ x.2.cooldown_time) : heapWork th h = 0 := by
  unfold heapWork
  have : h.filter (fun x => decide (th ≤ x.2.cooldown_time)) = [] := by
    rw [List.filter_eq_nil_iff]
    intro x hx
    simpa using hall x hx
  rw [this]
  rfl

theorem heapWork_eq_sumProc (a : List Job) (th : Nat) (rel : List (Nat × Job))
    (h : ∀ x ∈ rel, a.getD x.1 dummyJob = x.2) :
    heapWork th rel =
      sumProc a ((rel.filter fun x => decide (th ≤ x.2.cooldown_time)).map Prod.fst) := by
  unfold heapWork sumProc
  rw [List.map_map]
  refine congrArg List.sum ?_
  refine List.map_congr_left ?_
  intro x hx
  have hx' : x ∈ rel := (List.mem_filter.1 hx).1
  show x.2.processing_time = procOf a x.1
  unfold procOf
  rw [h x hx']

theorem sumProc_append (a : List Job) (S T : List Nat) :
    sumProc a (S ++ T) = sumProc a S + sumProc a T := by
  unfold sumProc
  rw [List.map_append, List.sum_append]

/-- The makespan invariant of the preemptive loop: if every block certificate
value is at most K, then the computed JobSchedule makespan stays at most K
throughout the run.  The per-threshold certificate (tau, S) says: the clock
plus the remaining work at cooldown level at least th is covered by a set S of
already released jobs, all released at or after tau, all at cooldown level at
least th. -/
theorem preLoop_cmax_le (a : List Job) (K : Nat)
    (hK : ∀ (tau th : Nat) (S : List Nat), S ≠ [] → List.Pairwise (· < ·) S →
      (∀ i' ∈ S, i' < a.length) →
      (∀ i' ∈ S, tau ≤ (a.getD i' dummyJob).delivery_time) →
      (∀ i' ∈ S, th ≤ (a.getD i' dummyJob).cooldown_time) →
      tau + sumProc a S + th ≤ K) :
    ∀ fuel rem heap t tt,
      (∀ x ∈ rem, a.get? x.1 = some x.2) →
      List.Pairwise (fun x y : Nat × Job => x.1 < y.1) rem →
      List.Pairwise (fun x y : Nat × Job => x.2.delivery_time ≤ y.2.delivery_time) rem →
      List.Pairwise (fun x y : Nat × Job => preCmp x y ≠ Ordering.lt) heap →
      (∀ x ∈ heap, x.1 < a.length ∧
        x.2.cooldown_time = (a.getD x.1 dummyJob).cooldown_time) →
      (∀ x ∈ heap, procOf a x.1 ≤ closedSlack x.1 t tt + x.2.processing_time) →
      (∀ e ∈ tt, e.1 ≤ t) →
      (∀ e ∈ tt, e.2 < a.length) →
      (∀ th : Nat, ∃ tau : Nat, ∃ S : List Nat,
        tau ≤ t ∧
        (∀ x ∈ rem, tau ≤ x.2.delivery_time) ∧
        List.Pairwise (· < ·) S ∧
        (∀ i' ∈ S, i' < a.length) ∧
        (∀ i' ∈ S, tau ≤ (a.getD i' dummyJob).delivery_time ∧
          th ≤ (a.getD i' dummyJob).cooldown_time) ∧
        (∀ i' ∈ S, ∀ x ∈ rem, i' < x.1) ∧
        (∀ x ∈ heap, th ≤ x.2.cooldown_time → x.1 ∈ S) ∧
        t + heapWork th heap ≤ tau + sumProc a S) →
      JobSchedule.c_max ⟨a, tt⟩ ≤ K →
      JobSchedule.c_max ⟨a, preLoop fuel rem heap t tt⟩ ≤ K := by
  intro fuel
  induction fuel with
  | zero =>
    intro rem heap t tt _ _ _ _ _ _ _ _ _ hKinv
    rw [preLoop]
    exact hKinv
  | succ f ih =>
    intro rem heap t tt hrem hremidx hremdel hsorted hHC hcons htt httidx hfin hKinv
    rw [preLoop]
    have hsplit : (rem.takeWhile fun x => x.2.delivery_time ≤ t) ++
        (rem.dropWhile fun x => x.2.delivery_time ≤ t) = rem :=
      List.takeWhile_append_dropWhile _ _
    have hrelJ : ∀ x ∈ (rem.takeWhile fun x => x.2.delivery_time ≤ t),
        a.get? x.1 = some x.2 :=
      fun x hx => hrem x (List.takeWhile_subset _ hx)
    have hrelJD : ∀ x ∈ (rem.takeWhile fun x => x.2.delivery_time ≤ t),
        a.getD x.1 dummyJob = x.2 :=
      fun x hx => (get?_imp a x.1 x.2 (hrelJ x hx)).2
    have hrelLen : ∀ x ∈ (rem.takeWhile fun x => x.2.delivery_time ≤ t), x.1 < a.length :=
      fun x hx => (get?_imp a x.1 x.2 (hrelJ x hx)).1
    have hrestJ : ∀ x ∈ (rem.dropWhile fun x => x.2.delivery_time ≤ t),
        a.get? x.1 = some x.2 :=
      fun x hx => hrem x (List.dropWhile_subset _ hx)
    have hrestidx : List.Pairwise (fun x y : Nat × Job => x.1 < y.1)
        (rem.dropWhile fun x => x.2.delivery_time ≤ t) :=
      List.Pairwise.sublist (List.dropWhile_sublist _) hremidx
    have hrestdel : List.Pairwise (fun x y : Nat × Job => x.2.delivery_time ≤ y.2.delivery_time)
        (rem.dropWhile fun x => x.2.delivery_time ≤ t) :=
      List.Pairwise.sublist (List.dropWhile_sublist _) hremdel
    have hrelrest : ∀ x ∈ (rem.takeWhile fun x => x.2.delivery_time ≤ t),
        ∀ y ∈ (rem.dropWhile fun x => x.2.delivery_time ≤ t), x.1 < y.1 := by
      have hpw : List.Pairwise (fun x y : Nat × Job => x.1 < y.1)
          ((rem.takeWhile fun x => x.2.delivery_time ≤ t) ++
            (rem.dropWhile fun x => x.2.delivery_time ≤ t)) := by
        rw [hsplit]
        exact hremidx
      exact (List.pairwise_append.1 hpw).2.2
    have hsorted' : List.Pairwise (fun x y : Nat × Job => preCmp x y ≠ Ordering.lt)
        (pushAllBy preCmp heap (rem.takeWhile fun x => x.2.delivery_time ≤ t)) :=
      pushAllBy_sorted _ heap hsorted
    have hpermheap : (pushAllBy preCmp heap
        (rem.takeWhile fun x => x.2.delivery_time ≤ t)).Perm
        (heap ++ (rem.takeWhile fun x => x.2.delivery_time ≤ t)) :=
      pushAllBy_perm _ _ _
    have hHC' : ∀ x ∈ pushAllBy preCmp heap (rem.takeWhile fun x => x.2.delivery_time ≤ t),
        x.1 < a.length ∧ x.2.cooldown_time = (a.getD x.1 dummyJob).cooldown_time := by
      intro x hx
      rcases List.mem_append.1 (hpermheap.mem_iff.1 hx) with hx | hx
      · exact hHC x hx
      · exact ⟨hrelLen x hx, by rw [hrelJD x hx]⟩
    have hcons' : ∀ x ∈ pushAllBy preCmp heap (rem.takeWhile fun x => x.2.delivery_time ≤ t),
        procOf a x.1 ≤ closedSlack x.1 t tt + x.2.processing_time := by
      intro x hx
      rcases List.mem_append.1 (hpermheap.mem_iff.1 hx) with hx | hx
      · exact hcons x hx
      · unfold procOf
        rw [hrelJD x hx]
        omega
    -- the block certificates survive the release phase
    have hfin' : ∀ th : Nat, ∃ tau : Nat, ∃ S : List Nat,
        tau ≤ t ∧
        (∀ x ∈ (rem.dropWhile fun x => x.2.delivery_time ≤ t), tau ≤ x.2.delivery_time) ∧
        List.Pairwise (· < ·) S ∧
        (∀ i' ∈ S, i' < a.length) ∧
        (∀ i' ∈ S, tau ≤ (a.getD i' dummyJob).delivery_time ∧
          th ≤ (a.getD i' dummyJob).cooldown_time) ∧
        (∀ i' ∈ S, ∀ x ∈ (rem.dropWhile fun x => x.2.delivery_time ≤ t), i' < x.1) ∧
        (∀ x ∈ pushAllBy preCmp heap (rem.takeWhile fun x => x.2.delivery_time ≤ t),
          th ≤ x.2.cooldown_time → x.1 ∈ S) ∧
        t + heapWork th (pushAllBy preCmp heap
          (rem.takeWhile fun x => x.2.delivery_time ≤ t)) ≤ tau + sumProc a S := by
      intro th
      obtain ⟨tau, S, h1, h2, h3, h4, h5, h6, h7, h8⟩ := hfin th
      refine ⟨tau, S ++ (((rem.takeWhile fun x => x.2.delivery_time ≤ t).filter
        fun x => decide (th ≤ x.2.cooldown_time)).map Prod.fst), h1, ?_, ?_, ?_, ?_, ?_, ?_, ?_⟩
      · exact fun x hx => h2 x (List.dropWhile_subset _ hx)
      · rw [List.pairwise_append]
        refine ⟨h3, ?_, ?_⟩
        · rw [List.pairwise_map]
          exact List.Pairwise.filter _ (List.Pairwise.sublist (List.takeWhile_sublist _) hremidx)
        · intro i' hi' b hb
          obtain ⟨x, hxmem, rfl⟩ := List.mem_map.1 hb
          exact h6 i' hi' x (List.takeWhile_subset _ (List.mem_filter.1 hxmem).1)
      · intro i' hi'
        rcases List.mem_append.1 hi' with hi' | hi'
        · exact h4 i' hi'
        · obtain ⟨x, hxmem, rfl⟩ := List.mem_map.1 hi'
          exact hrelLen x (List.mem_filter.1 hxmem).1
      · intro i' hi'
        rcases List.mem_append.1 hi' with hi' | hi'
        · exact h5 i' hi'
        · obtain ⟨x, hxmem, rfl⟩ := List.mem_map.1 hi'
          obtain ⟨hxrel, hxq⟩ := List.mem_filter.1 hxmem
          have hxrem := List.takeWhile_subset
            (fun x : Nat × Job => decide (x.2.delivery_time ≤ t)) hxrel
          constructor
          · rw [hrelJD x hxrel]
            exact h2 x hxrem
          · rw [hrelJD x hxrel]
            simpa using hxq
      · intro i' hi' y hy
        rcases List.mem_append.1 hi' with hi' | hi'
        · exact h6 i' hi' y (List.dropWhile_subset _ hy)
        · obtain ⟨x, hxmem, rfl⟩ := List.mem_map.1 hi'
          exact hrelrest x (List.mem_filter.1 hxmem).1 y hy
      · intro x hx hq
        rcases List.mem_append.1 (hpermheap.mem_iff.1 hx) with hx | hx
        · exact List.mem_append_left _ (h7 x hx hq)
        · refine List.mem_append_right _ ?_
          exact List.mem_map.2 ⟨x, List.mem_filter.2 ⟨hx, by simpa using hq⟩, rfl⟩
      · rw [heapWork_perm th hpermheap, heapWork_append, sumProc_append,
          heapWork_eq_sumProc a th _ hrelJD]
        omega
    cases hh : pushAllBy preCmp heap (rem.takeWhile fun x => x.2.delivery_time ≤ t) with
    | nil =>
      cases hr : rem.dropWhile (fun x => x.2.delivery_time ≤ t) with
      | nil =>
        dsimp only
        exact hKinv
      | cons hd2 rest =>
        obtain ⟨k, nj⟩ := hd2
        have hjump : t < nj.delivery_time := by
          have := dropWhile_head_false _ _ _ rem hr
          simpa using this
        dsimp only
        refine ih _ _ _ _ (hr ▸ hrestJ) (hr ▸ hrestidx) (hr ▸ hrestdel) List.Pairwise.nil
          (by intro x hx; cases hx) (by intro x hx; cases hx)
          (fun e he => Nat.le_trans (htt e he) (Nat.le_of_lt hjump)) httidx ?_ hKinv
        intro th
        refine ⟨nj.delivery_time, [], Nat.le_refl _, ?_, List.Pairwise.nil,
          (by intro i' hi'; cases hi'), (by intro i' hi'; cases hi'),
          (by intro i' hi' y hy; cases hi'), (by intro x hx; cases hx), ?_⟩
        · intro x hx
          rcases List.mem_cons.1 hx with rfl | hx
          · exact Nat.le_refl _
          · exact (List.pairwise_cons.1 (hr ▸ hrestdel)).1 x hx
        · have h0 : heapWork th ([] : List (Nat × Job)) = 0 := rfl
          rw [h0]
          simp [sumProc]
    | cons hd heap2 =>
      obtain ⟨i0, sj⟩ := hd
      rw [hh] at hfin' hsorted' hHC' hcons'
      have hmemhd : ((i0, sj) : Nat × Job) ∈ (i0, sj) :: heap2 := List.mem_cons_self _ _
      have hhd := hHC' (i0, sj) hmemhd
      dsimp only at hhd
      have hq_eq : sj.cooldown_time = (a.getD i0 dummyJob).cooldown_time := hhd.2
      have hconshd := hcons' (i0, sj) hmemhd
      dsimp only at hconshd
      have hsorted2 : List.Pairwise (fun x y : Nat × Job => preCmp x y ≠ Ordering.lt) heap2 :=
        (List.pairwise_cons.1 hsorted').2
      have hmaxq : ∀ z ∈ heap2, z.2.cooldown_time ≤ sj.cooldown_time := by
        intro z hz
        exact cooldown_le_of_not_lt ((List.pairwise_cons.1 hsorted').1 z hz)
      have htt2le : ∀ e ∈ (if tt.getLast?.map Prod.snd = some i0 then tt
          else tt ++ [(t, i0)]), e.1 ≤ t := by
        split
        · exact htt
        · intro e he
          rcases List.mem_append.1 he with he | he
          · exact htt e he
          · rcases List.mem_singleton.1 he with rfl
            exact Nat.le_refl t
      have htt2idx : ∀ e ∈ (if tt.getLast?.map Prod.snd = some i0 then tt
          else tt ++ [(t, i0)]), e.2 < a.length := by
        split
        · exact httidx
        · intro e he
          rcases List.mem_append.1 he with he | he
          · exact httidx e he
          · rcases List.mem_singleton.1 he with rfl
            exact hhd.1
      have hlast2 : (if tt.getLast?.map Prod.snd = some i0 then tt
          else tt ++ [(t, i0)]).getLast?.map Prod.snd = some i0 :=
        updated_tt_getLast tt t i0
      have hcons2 : ∀ x ∈ (i0, sj) :: heap2,
          procOf a x.1 ≤ closedSlack x.1 t (if tt.getLast?.map Prod.snd = some i0 then tt
            else tt ++ [(t, i0)]) + x.2.processing_time := by
        intro x hx
        rw [closedSlack_update]
        exact hcons' x hx
      have hcmax2 : JobSchedule.c_max ⟨a, (if tt.getLast?.map Prod.snd = some i0 then tt
          else tt ++ [(t, i0)])⟩ ≤ K := by
        split
        · exact hKinv
        · next hne =>
          rw [cmax_snoc a tt t i0 httidx hhd.1]
          refine Nat.max_le.2 ⟨hKinv, ?_⟩
          have hct : closedTime i0 (tt ++ [(t, i0)]) = closedSlack i0 t tt := by
            unfold closedSlack
            rw [closedTime_append]
          rw [hct]
          obtain ⟨tau, S, h1, h2, h3, h4, h5, h6, h7, h8⟩ := hfin' sj.cooldown_time
          have hi0S : i0 ∈ S := h7 (i0, sj) hmemhd (Nat.le_refl _)
          have hSne : S ≠ [] := fun hEq => by rw [hEq] at hi0S; cases hi0S
          have hKS := hK tau sj.cooldown_time S hSne h3 h4
            (fun i' h => (h5 i' h).1) (fun i' h => (h5 i' h).2)
          have hwork := heapWork_cons sj.cooldown_time (i0, sj) heap2
          rw [if_pos (Nat.le_refl _)] at hwork
          dsimp only at hwork
          rw [← hq_eq]
          omega
      have mainA : (∀ x ∈ (rem.dropWhile fun x => x.2.delivery_time ≤ t),
          t + sj.processing_time ≤ x.2.delivery_time) →
          JobSchedule.c_max ⟨a, preLoop f (rem.dropWhile fun x => x.2.delivery_time ≤ t)
            heap2 (t + sj.processing_time)
            (if tt.getLast?.map Prod.snd = some i0 then tt
             else tt ++ [(t, i0)])⟩ ≤ K := by
        intro hrestbound
        refine ih _ _ _ _ hrestJ hrestidx hrestdel hsorted2
          (fun x hx => hHC' x (List.mem_cons_of_mem _ hx)) ?_ ?_ htt2idx ?_ hcmax2
        · intro x hx
          refine Nat.le_trans (hcons2 x (List.mem_cons_of_mem _ hx)) ?_
          exact Nat.add_le_add_right (closedSlack_mono _ (Nat.le_add_right _ _) _) _
        · intro e he
          exact Nat.le_trans (htt2le e he) (Nat.le_add_right _ _)
        · intro th
          by_cases hth : th ≤ sj.cooldown_time
          · obtain ⟨tau, S, h1, h2, h3, h4, h5, h6, h7, h8⟩ := hfin' th
            refine ⟨tau, S, Nat.le_trans h1 (Nat.le_add_right _ _), h2, h3, h4, h5, h6, ?_, ?_⟩
            · intro x hx hq
              exact h7 x (List.mem_cons_of_mem _ hx) hq
            · have hwork := heapWork_cons th (i0, sj) heap2
              rw [if_pos hth] at hwork
              dsimp only at hwork
              omega
          · refine ⟨t + sj.processing_time, [], Nat.le_refl _, hrestbound, List.Pairwise.nil,
              (by intro i' hi'; cases hi'), (by intro i' hi'; cases hi'),
              (by intro i' hi' y hy; cases hi'), ?_, ?_⟩
            · intro x hx hq
              exfalso
              have h9 := hmaxq x hx
              omega
            · have hzero : heapWork th heap2 = 0 :=
                heapWork_zero th heap2 (by intro x hx; have := hmaxq x hx; omega)
              rw [hzero]
              simp [sumProc]
      cases hr : rem.dropWhile (fun x => x.2.delivery_time ≤ t) with
      | nil =>
        dsimp only
        rw [hr] at mainA
        exact mainA (by intro x hx; cases hx)
      | cons hd2 rest =>
        obtain ⟨k, nj⟩ := hd2
        have hjump : t < nj.delivery_time := by
          have := dropWhile_head_false _ _ _ rem hr
          simpa using this
        dsimp only
        split
        · next hcond =>
          refine ih _ _ _ _ (hr ▸ hrestJ) (hr ▸ hrestidx) (hr ▸ hrestdel)
            (pushBy_sorted _ heap2 hsorted2) ?_ ?_ ?_ htt2idx ?_ hcmax2
          · intro x hx
            rcases (mem_pushBy preCmp _ heap2 x).1 hx with rfl | hx
            · exact ⟨hhd.1, hq_eq⟩
            · exact hHC' x (List.mem_cons_of_mem _ hx)
          · intro x hx
            rcases (mem_pushBy preCmp _ heap2 x).1 hx with rfl | hx
            · have hadv := closedSlack_last_advance i0
                (if tt.getLast?.map Prod.snd = some i0 then tt else tt ++ [(t, i0)])
                hlast2 htt2le (Nat.le_of_lt hjump)
              dsimp only
              rw [hadv]
              have h9 := hcons2 (i0, sj) hmemhd
              dsimp only at h9
              omega
            · refine Nat.le_trans (hcons2 x (List.mem_cons_of_mem _ hx)) ?_
              exact Nat.add_le_add_right (closedSlack_mono _ (Nat.le_of_lt hjump) _) _
          · intro e he
            exact Nat.le_trans (htt2le e he) (Nat.le_of_lt hjump)
          · intro th
            by_cases hth : th ≤ sj.cooldown_time
            · obtain ⟨tau, S, h1, h2, h3, h4, h5, h6, h7, h8⟩ := hfin' th
              refine ⟨tau, S, Nat.le_trans h1 (Nat.le_of_lt hjump), hr ▸ h2, h3, h4, h5,
                hr ▸ h6, ?_, ?_⟩
              · intro x hx hq
                rcases (mem_pushBy preCmp _ heap2 x).1 hx with rfl | hx
                · exact h7 (i0, sj) hmemhd hth
                · exact h7 x (List.mem_cons_of_mem _ hx) hq
              · have hwp := heapWork_perm th (pushBy_perm preCmp
                  (i0, { sj with processing_time := t + sj.processing_time - nj.delivery_time })
                  heap2)
                have hwc := heapWork_cons th
                  (i0, { sj with processing_time := t + sj.processing_time - nj.delivery_time })
                  heap2
                rw [if_pos hth] at hwc
                dsimp only at hwc
                have hwork := heapWork_cons th (i0, sj) heap2
                rw [if_pos hth] at hwork
                dsimp only at hwork
                rw [hwp, hwc]
                omega
            · refine ⟨nj.delivery_time, [], Nat.le_refl _, ?_, List.Pairwise.nil,
                (by intro i' hi'; cases hi'), (by intro i' hi'; cases hi'),
                (by intro i' hi' y hy; cases hi'), ?_, ?_⟩
              · intro x hx
                rcases List.mem_cons.1 hx with rfl | hx
                · exact Nat.le_refl _
                · exact (List.pairwise_cons.1 (hr ▸ hrestdel)).1 x hx
              · intro x hx hq
                exfalso
                rcases (mem_pushBy preCmp _ heap2 x).1 hx with rfl | hx
                · dsimp only at hq
                  omega
                · have h9 := hmaxq x hx
                  omega
              · have hzero : heapWork th (pushBy preCmp
                    (i0, { sj with processing_time := t + sj.processing_time - nj.delivery_time })
                    heap2) = 0 := by
                  rw [heapWork_perm th (pushBy_perm preCmp _ heap2)]
                  refine heapWork_zero th _ ?_
                  intro x hx
                  rcases List.mem_cons.1 hx with rfl | hx
                  · dsimp only
                    omega
                  · have := hmaxq x hx
                    omega
                rw [hzero]
                simp [sumProc]
        · next hcond =>
          rw [hr] at mainA
          refine mainA ?_
          intro x hx
          rcases List.mem_cons.1 hx with rfl | hx
          · dsimp only
            omega
          · have h9 := (List.pairwise_cons.1 (hr ▸ hrestdel)).1 x hx
            dsimp only at h9 ⊢
            omega

/-! ### Claim C1: the preemptive makespan never exceeds the schrage makespan -/

theorem indexed_snd_mem : ∀ (k : Nat) (l : List Job) (x : Nat × Job),
    x ∈ indexed k l → x.2 ∈ l := by
  intro k l
  induction l generalizing k with
  | nil => intro x hx; cases hx
  | cons y ys ih =>
    intro x hx
    rw [indexed] at hx
    rcases List.mem_cons.1 hx with rfl | hx
    · exact List.mem_cons_self _ _
    · exact List.mem_cons_of_mem _ (ih (k + 1) x hx)

theorem indexed_pairwise_lt : ∀ (k : Nat) (l : List Job),
    List.Pairwise (fun x y : Nat × Job => x.1 < y.1) (indexed k l) := by
  intro k l
  induction l generalizing k with
  | nil => exact List.Pairwise.nil
  | cons y ys ih =>
    rw [indexed]
    refine List.pairwise_cons.2 ⟨?_, ih (k + 1)⟩
    intro z hz
    have h1 := (mem_indexed ys (k + 1) z hz).1
    dsimp only
    omega

theorem indexed_pairwise_snd {P : Job → Job → Prop} : ∀ (k : Nat) (l : List Job),
    List.Pairwise P l →
    List.Pairwise (fun x y : Nat × Job => P x.2 y.2) (indexed k l) := by
  intro k l
  induction l generalizing k with
  | nil => intro _; exact List.Pairwise.nil
  | cons y ys ih =>
    intro hp
    rw [indexed]
    obtain ⟨h1, h2⟩ := List.pairwise_cons.1 hp
    refine List.pairwise_cons.2 ⟨?_, ih (k + 1) h2⟩
    intro z hz
    exact h1 z.2 (indexed_snd_mem (k + 1) ys z hz)

theorem sortedByDelivery_sorted (jobs : List Job) :
    List.Pairwise (fun a b : Job => a.delivery_time ≤ b.delivery_time)
      (sortedByDelivery jobs) := by
  have ht : IsTotal Job (fun a b : Job => a.delivery_time ≤ b.delivery_time) :=
    ⟨fun a b => Nat.le_total _ _⟩
  have htr : IsTrans Job (fun a b : Job => a.delivery_time ≤ b.delivery_time) :=
    ⟨fun _ _ _ h1 h2 => Nat.le_trans h1 h2⟩
  exact List.sorted_insertionSort _ jobs

/-- Claim C1: for every input collection of jobs, the makespan of the
preemptive schedule is at most the makespan of the non-preemptive schedule:
JobSchedule.c_max applied to schrage_preemptive jobs is less than or equal to
JobList.c_max applied to schrage jobs. -/
theorem preemptive_le_nonpreemptive (jobs : List Job) :
    JobSchedule.c_max (schrage_preemptive jobs) ≤ JobList.c_max (schrage jobs) := by
  have hKmain : ∀ (tau th : Nat) (S : List Nat), S ≠ [] → List.Pairwise (· < ·) S →
      (∀ i' ∈ S, i' < (sortedByDelivery jobs).length) →
      (∀ i' ∈ S, tau ≤ ((sortedByDelivery jobs).getD i' dummyJob).delivery_time) →
      (∀ i' ∈ S, th ≤ ((sortedByDelivery jobs).getD i' dummyJob).cooldown_time) →
      tau + sumProc (sortedByDelivery jobs) S + th ≤ JobList.c_max (schrage jobs) := by
    intro tau th S hSne hpw hlen hdel hcool
    have hsub : (S.map fun i' => (sortedByDelivery jobs).getD i' dummyJob).Sublist
        (sortedByDelivery jobs) := by
      have h1 := map_getD_sublist (sortedByDelivery jobs) S 0 hpw
        (fun i' hi' => ⟨Nat.zero_le _, hlen i' hi'⟩)
      simpa using h1
    have hperm : ((sortedByDelivery jobs : List Job) : Multiset Job) =
        ((schrage jobs).jobs : Multiset Job) := by
      rw [Multiset.coe_eq_coe]
      exact (sortedByDelivery_perm jobs).trans (schrage_jobs_perm jobs).symm
    have hle : ((S.map fun i' => (sortedByDelivery jobs).getD i' dummyJob) :
        Multiset Job) ≤ ((schrage jobs).jobs : Multiset Job) := by
      rw [← hperm, Multiset.coe_le]
      exact hsub.subperm
    have hTne : (S.map fun i' => (sortedByDelivery jobs).getD i' dummyJob) ≠ [] := by
      intro h0
      exact hSne (List.map_eq_nil_iff.1 h0)
    have hTdel : ∀ w ∈ S.map fun i' => (sortedByDelivery jobs).getD i' dummyJob,
        tau ≤ w.delivery_time := by
      intro w hw
      obtain ⟨i', hi', rfl⟩ := List.mem_map.1 hw
      exact hdel i' hi'
    have hTcool : ∀ w ∈ S.map fun i' => (sortedByDelivery jobs).getD i' dummyJob,
        th ≤ w.cooldown_time := by
      intro w hw
      obtain ⟨i', hi', rfl⟩ := List.mem_map.1 hw
      exact hcool i' hi'
    have hblock := cMaxGo_block_bound (schrage jobs).jobs 0 0
      (S.map fun i' => (sortedByDelivery jobs).getD i' dummyJob) tau th hle hTne hTdel hTcool
    have hmax0 : Nat.max 0 tau = tau := Nat.max_eq_right (Nat.zero_le _)
    have hsumeq : ((S.map fun i' => (sortedByDelivery jobs).getD i' dummyJob).map
        fun w => w.processing_time).sum = sumProc (sortedByDelivery jobs) S := by
      rw [List.map_map]
      rfl
    rw [hmax0, hsumeq] at hblock
    exact hblock
  have hJ1 : ∀ x ∈ indexed 0 (sortedByDelivery jobs),
      (sortedByDelivery jobs).get? x.1 = some x.2 := by
    intro x hx
    simpa using (mem_indexed (sortedByDelivery jobs) 0 x hx).2
  have hFIN : ∀ th : Nat, ∃ tau : Nat, ∃ S : List Nat,
      tau ≤ 0 ∧
      (∀ x ∈ indexed 0 (sortedByDelivery jobs), tau ≤ x.2.delivery_time) ∧
      List.Pairwise (· < ·) S ∧
      (∀ i' ∈ S, i' < (sortedByDelivery jobs).length) ∧
      (∀ i' ∈ S, tau ≤ ((sortedByDelivery jobs).getD i' dummyJob).delivery_time ∧
        th ≤ ((sortedByDelivery jobs).getD i' dummyJob).cooldown_time) ∧
      (∀ i' ∈ S, ∀ x ∈ indexed 0 (sortedByDelivery jobs), i' < x.1) ∧
      (∀ x ∈ ([] : List (Nat × Job)), th ≤ x.2.cooldown_time → x.1 ∈ S) ∧
      0 + heapWork th [] ≤ tau + sumProc (sortedByDelivery jobs) S := by
    intro th
    refine ⟨0, [], Nat.le_refl 0, (fun x _ => Nat.zero_le _), List.Pairwise.nil,
      (by intro i' hi'; cases hi'), (by intro i' hi'; cases hi'),
      (by intro i' hi' y hy; cases hi'), (by intro x hx; cases hx), ?_⟩
    simp [heapWork, sumProc]
  show JobSchedule.c_max ⟨sortedByDelivery jobs,
      preLoop (loopFuel jobs.length) (indexed 0 (sortedByDelivery jobs)) [] 0 []⟩ ≤
    JobList.c_max (schrage jobs)
  exact preLoop_cmax_le (sortedByDelivery jobs) (JobList.c_max (schrage jobs)) hKmain
    (loopFuel jobs.length) (indexed 0 (sortedByDelivery jobs)) [] 0 []
    hJ1 (indexed_pairwise_lt 0 _)
    (indexed_pairwise_snd 0 _ (sortedByDelivery_sorted jobs))
    List.Pairwise.nil
    (fun x hx => absurd hx (List.not_mem_nil x))
    (fun x hx => absurd hx (List.not_mem_nil x))
    (fun e he => absurd he (List.not_mem_nil e))
    (fun e he => absurd he (List.not_mem_nil e))
    hFIN (Nat.zero_le _)
